import Mathlib

/-! Splines: the document model of `Scene` (src/scene.cpp)

A shallow embedding of the tree model implemented by `Scene` in `src/scene.cpp`:
identity allocation (`addObject` / `removeObject`), the row and parent queries
(`index`, `parent`, `rowCount`), the structural edits (`insertRows`, `removeRows`)
and the drag and drop protocol (`mimeData`, `dropMimeData`).

Conventions of the embedding.

* A C++ `Object*` is an address `Ptr`. The tree owned by the scene is a value of type
  `Object`; every node carries its own address, so that a handle can denote a node by
  address exactly as `QModelIndex::internalPointer` does.
* The class `Object` (object.h / object.cpp) is not part of the sources under `src/`.
  The few member functions of it that `Scene` calls are modelled from the specification;
  each such definition says so in its doc comment.
* `int` values are integers; the one place where `Scene` does arithmetic on its state
  (`_objectCounter++`) and the computation of notification ranges wrap to 32 bits
  (`wrapInt32`).
* `Q_ASSERT_X` is modelled as in a debug build: a failed assertion stops the call. The
  outcome `preconditionViolation` carries the scene as it was when the assertion fired.
* Dereferencing an address that denotes no node of the tree (a dangling or null pointer)
  has no defined behaviour in C++; the model reports it as `undefinedBehaviour`.
* The signals a view can observe are collected, in emission order, in `Scene.events`,
  together with two markers for the points at which the tree itself is mutated.
-/

namespace Splines

/-! ## Machine integers -/

/-- Largest value of a 32 bit `int`. -/
def INT_MAX : Int := 2147483647

/-- Smallest value of a 32 bit `int`. -/
def INT_MIN : Int := -2147483648

/-- Two's complement wrap-around of an integer to the range of a 32 bit `int`. -/
def wrapInt32 (x : Int) : Int := (x + 2147483648) % 4294967296 - 2147483648

/-! ## Objects -/

/-- The address of an `Object` (a C++ `Object*`). -/
abbrev Ptr := Nat

/-- A node of the document tree: its address, its `id` and its owned, ordered children. -/
inductive Object where
  | mk (ptr : Ptr) (id : Int) (children : List Object)
  deriving Repr

namespace Object

/-- The address of the node. -/
def ptr : Object → Ptr
  | mk p _ _ => p

/-- Source: `Object::id()`. -/
def id : Object → Int
  | mk _ i _ => i

/-- The ordered children of the node. -/
def children : Object → List Object
  | mk _ _ cs => cs

/-- Source: `Object::setId(id)`. -/
def setId : Object → Int → Object
  | mk p _ cs, i => mk p i cs

mutual
/-- Decidable equality of objects. -/
def decEq : (a b : Object) → Decidable (a = b)
  | mk p i cs, mk q j ds =>
    if hp : p = q then
      if hi : i = j then
        match decEqList cs ds with
        | isTrue h => isTrue (by rw [hp, hi, h])
        | isFalse h => isFalse (by intro e; cases e; exact h rfl)
      else isFalse (by intro e; cases e; exact hi rfl)
    else isFalse (by intro e; cases e; exact hp rfl)
/-- Decidable equality of lists of objects. -/
def decEqList : (as bs : List Object) → Decidable (as = bs)
  | [], [] => isTrue rfl
  | [], _ :: _ => isFalse (by intro e; cases e)
  | _ :: _, [] => isFalse (by intro e; cases e)
  | a :: as, b :: bs =>
    match decEq a b with
    | isTrue h =>
      match decEqList as bs with
      | isTrue h2 => isTrue (by rw [h, h2])
      | isFalse h2 => isFalse (by intro e; cases e; exact h2 rfl)
    | isFalse h => isFalse (by intro e; cases e; exact h rfl)
end

instance : DecidableEq Object := decEq

mutual
/-- The addresses of a node and of all its descendants, in pre-order. -/
def ptrs : Object → List Ptr
  | mk p _ cs => p :: ptrsList cs
/-- The addresses of all nodes of a forest, in pre-order. -/
def ptrsList : List Object → List Ptr
  | [] => []
  | o :: os => ptrs o ++ ptrsList os
end

mutual
/-- The ids of a node and of all its descendants, in pre-order. -/
def ids : Object → List Int
  | mk _ i cs => i :: idsList cs
/-- The ids of all nodes of a forest, in pre-order. -/
def idsList : List Object → List Int
  | [] => []
  | o :: os => ids o ++ idsList os
end

mutual
/-- Dereference the address `p` in the tree: the node stored at `p`, if it is live. -/
def lookup (p : Ptr) : Object → Option Object
  | mk q i cs => if q = p then some (mk q i cs) else lookupList p cs
/-- Dereference the address `p` in a forest. -/
def lookupList (p : Ptr) : List Object → Option Object
  | [] => none
  | o :: os =>
    match lookup p o with
    | some x => some x
    | none => lookupList p os
end

mutual
/-- Modelled from the spec: `Object::parent()`, which is not under `src/`. The parent
back-reference of the node at address `p`: the node that owns it as a child. `none` is
the null parent of the root (or of an address that is not live). -/
def parentOf (p : Ptr) : Object → Option Object
  | mk q i cs => if p ∈ cs.map ptr then some (mk q i cs) else parentOfList p cs
/-- The parent of `p` searched in a forest. -/
def parentOfList (p : Ptr) : List Object → Option Object
  | [] => none
  | o :: os =>
    match parentOf p o with
    | some x => some x
    | none => parentOfList p os
end

/-- Modelled from the spec: `Object::childCount()`, which is not under `src/`: the number
of children. -/
def childCount (o : Object) : Int := (o.children.length : Int)

/-- Modelled from the spec: `Object::child(row)`, which is not under `src/`: the child at
the given row, or null when the row is out of range. -/
def child (o : Object) (row : Int) : Option Object :=
  if row < 0 then none else o.children[row.toNat]?

/-- Modelled from the spec: `Object::row()`, which is not under `src/`: the ordinal
position of the node at `p` among its siblings. The root has no siblings. -/
def row (tree : Object) (p : Ptr) : Option Int :=
  match parentOf p tree with
  | some par => some ((par.children.map ptr).indexOf p : Int)
  | none => none

/-- Insertion of `o` at row `pos` of a list of children, shifting the later children
right. A position outside the list is clamped, as `QList::insert` does. -/
def insertAt (pos : Int) (o : Object) (cs : List Object) : List Object :=
  cs.take pos.toNat ++ o :: cs.drop pos.toNat

mutual
/-- Modelled from the spec: `Object::addChild(o, position)` called on the node at address
`par`, which is not under `src/`: `o` becomes the child at row `pos` of that node, the
children from that row on are shifted right. -/
def addChild (par : Ptr) (pos : Int) (o : Object) : Object → Object
  | mk q i cs => if q = par then mk q i (insertAt pos o cs) else mk q i (addChildList par pos o cs)
/-- The forest version of `addChild`. -/
def addChildList (par : Ptr) (pos : Int) (o : Object) : List Object → List Object
  | [] => []
  | c :: cs => addChild par pos o c :: addChildList par pos o cs
end

/-- Modelled from the spec: `o->setParent(root)` for a parentless object `o`, which is not
under `src/`: `o` is appended as the last child of the root. -/
def setParentRoot (root : Object) (o : Object) : Object :=
  match root with
  | mk q i cs => mk q i (cs ++ [o])

mutual
/-- Modelled from the spec: `delete o` for the node at address `p`; the destructor of
`Object` is not under `src/`. The node leaves the children of its parent and is destroyed
together with the subtree it owns. -/
def destroy (p : Ptr) : Object → Object
  | mk q i cs => mk q i (destroyList p cs)
/-- The forest version of `destroy`. -/
def destroyList (p : Ptr) : List Object → List Object
  | [] => []
  | o :: os => if o.ptr = p then destroyList p os else destroy p o :: destroyList p os
end

/-- The children that `removeChildren(position, rows)` takes out of a list of children. -/
def removedRange (position rows : Int) (cs : List Object) : List Object :=
  (cs.drop position.toNat).take rows.toNat

/-- The children that `removeChildren(position, rows)` leaves in a list of children. -/
def keptRange (position rows : Int) (cs : List Object) : List Object :=
  cs.take position.toNat ++ (cs.drop position.toNat).drop rows.toNat

/-- Whether `[position, position + rows)` is a range of rows of a list of children. -/
def validRange (position rows : Int) (cs : List Object) : Bool :=
  decide (0 ≤ position) && decide (position + rows ≤ (cs.length : Int))

mutual
/-- Modelled from the spec: `Object::removeChildren(position, rows)` called on the node at
address `par`, which is not under `src/`: removes `rows` contiguous children starting at
`position` when the whole range is valid, and nothing otherwise. -/
def removeChildren (par : Ptr) (position rows : Int) : Object → Object
  | mk q i cs =>
    if q = par then
      (if validRange position rows cs then mk q i (keptRange position rows cs) else mk q i cs)
    else mk q i (removeChildrenList par position rows cs)
/-- The forest version of `removeChildren`. -/
def removeChildrenList (par : Ptr) (position rows : Int) : List Object → List Object
  | [] => []
  | c :: cs => removeChildren par position rows c :: removeChildrenList par position rows cs
end

end Object

/-! ## Handles -/

/-- A `QModelIndex`: row, column, internal pointer and whether it belongs to a model. -/
structure QModelIndex where
  row : Int
  column : Int
  internalPointer : Option Ptr
  hasModel : Bool
  deriving DecidableEq, Repr

namespace QModelIndex

/-- The default constructed handle `QModelIndex()`. -/
def invalid : QModelIndex := ⟨-1, -1, none, false⟩

/-- Qt: `QModelIndex::isValid()`. -/
def isValid (i : QModelIndex) : Bool :=
  decide (0 ≤ i.row) && decide (0 ≤ i.column) && i.hasModel

end QModelIndex

/-- Qt: `QAbstractItemModel::createIndex(row, column, ptr)`. -/
def createIndex (row column : Int) (p : Ptr) : QModelIndex := ⟨row, column, some p, true⟩

/-! ## Observable events -/

/-- The signals of the model, and two markers for the mutation of the tree. -/
inductive Event where
  | beginInsertRows (parent : QModelIndex) (first last : Int)
  | endInsertRows
  | beginRemoveRows (parent : QModelIndex) (first last : Int)
  | endRemoveRows
  | changed
  | attached (o : Ptr) (parent : Ptr)
  | destroyed (o : Ptr)
  deriving DecidableEq, Repr

namespace Event

/-- Events that belong to an insertion. -/
def isInsertion : Event → Bool
  | beginInsertRows _ _ _ => true
  | endInsertRows => true
  | attached _ _ => true
  | _ => false

/-- Events that belong to a removal. -/
def isRemoval : Event → Bool
  | beginRemoveRows _ _ _ => true
  | endRemoveRows => true
  | destroyed _ => true
  | _ => false

end Event

/-! ## The scene -/

/-- The state of a `Scene`, with the static list `_draggedObjects` and the trace of
emitted events. -/
structure Scene where
  root : Object
  freeIds : List Int
  objectCounter : Int
  objects : List (Int × Ptr)
  draggedObjects : List QModelIndex
  events : List Event
  deriving DecidableEq

/-- The outcome of a call. -/
inductive Outcome (α : Type) where
  | ok (value : α)
  | preconditionViolation (state : Scene)
  | undefinedBehaviour
  deriving DecidableEq

/-- Qt: `Qt::DropAction`. -/
inductive DropAction where
  | CopyAction
  | MoveAction
  | LinkAction
  | ActionMask
  | TargetMoveAction
  | IgnoreAction
  deriving DecidableEq, Repr

/-- The content of a `QMimeData`: the formats it carries and the objects that the stream
stored under `application/Object` decodes to. -/
structure QMimeData where
  formats : List String
  objects : List Object
  deriving DecidableEq

namespace QMimeData

/-- Qt: `QMimeData::hasFormat`. -/
def hasFormat (d : QMimeData) (format : String) : Bool := decide (format ∈ d.formats)

end QMimeData

namespace Scene

/-- Source: `Scene::Scene()`. The address and id of the new `Root`, the initial value of
`_objectCounter` (declared in scene.h) and the current content of the static list
`_draggedObjects` are parameters. -/
def fresh (rootPtr : Ptr) (rootId : Int) (counter0 : Int) (dragged : List QModelIndex) : Scene :=
  { root := Object.mk rootPtr rootId [], freeIds := [], objectCounter := counter0,
    objects := [], draggedObjects := dragged, events := [] }

/-- Qt: `QMap::insert(key, value)` on `_objects`: an existing entry of the key is replaced. -/
def objectsInsert (m : List (Int × Ptr)) (k : Int) (v : Ptr) : List (Int × Ptr) :=
  (k, v) :: m.filter (fun e => decide (e.1 ≠ k))

/-- The id that `addObject` gives to the new object (scene.cpp, lines 27 to 31). -/
def allocatedId (s : Scene) : Int :=
  match s.freeIds with
  | k :: _ => k
  | [] => s.objectCounter

/-- Source: `Scene::addObject` (scene.cpp, lines 25 to 40). -/
def addObject (s : Scene) (o : Object) : Scene :=
  let newId := allocatedId s
  let o1 := o.setId newId
  let n := s.root.childCount
  { root := Object.setParentRoot s.root o1,
    freeIds := s.freeIds.tail,
    objectCounter :=
      (match s.freeIds with
       | _ :: _ => s.objectCounter
       | [] => wrapInt32 (s.objectCounter + 1)),
    objects := objectsInsert s.objects newId o1.ptr,
    draggedObjects := s.draggedObjects,
    events := s.events ++
      [Event.beginInsertRows QModelIndex.invalid n n, Event.attached o1.ptr s.root.ptr,
       Event.endInsertRows, Event.changed] }

/-- Source: `Scene::getObject` (scene.cpp, lines 60 to 67). -/
def getObject (s : Scene) (index : QModelIndex) : Ptr :=
  if index.isValid then
    match index.internalPointer with
    | some item => item
    | none => s.root.ptr
  else s.root.ptr

/-- Source: `Scene::rowCount` (scene.cpp, lines 69 to 74). -/
def rowCount (s : Scene) (parent : QModelIndex) : Outcome Int :=
  match Object.lookup (getObject s parent) s.root with
  | some parentItem => .ok parentItem.childCount
  | none => .undefinedBehaviour

/-- Source: `Scene::index` (scene.cpp, lines 81 to 94). -/
def index (s : Scene) (row column : Int) (parent : QModelIndex) : Outcome QModelIndex :=
  if parent.isValid && decide (parent.column ≠ 0) then .ok QModelIndex.invalid
  else
    match Object.lookup (getObject s parent) s.root with
    | none => .undefinedBehaviour
    | some parentItem =>
      match parentItem.child row with
      | some childItem => .ok (createIndex row column childItem.ptr)
      | none => .ok QModelIndex.invalid

/-- Source: `Scene::parent` (scene.cpp, lines 96 to 108). -/
def parent (s : Scene) (index : QModelIndex) : Outcome QModelIndex :=
  if !index.isValid then .ok QModelIndex.invalid
  else
    let childItem := getObject s index
    match Object.lookup childItem s.root with
    | none => .undefinedBehaviour
    | some _ =>
      match Object.parentOf childItem s.root with
      | none => .undefinedBehaviour
      | some parentItem =>
        if parentItem.ptr = s.root.ptr then .ok QModelIndex.invalid
        else
          match Object.row s.root parentItem.ptr with
          | some r => .ok (createIndex r 0 parentItem.ptr)
          | none => .undefinedBehaviour

/-- Source: `Scene::removeObject` (scene.cpp, lines 42 to 51). -/
def removeObject (s : Scene) (index : QModelIndex) : Outcome Scene :=
  if !index.isValid then .preconditionViolation s
  else
    let o := getObject s index
    match parent s index with
    | .ok parentIndex =>
      (match Object.lookup o s.root, Object.row s.root o with
       | some obj, some r =>
         .ok { s with
               freeIds := s.freeIds ++ [obj.id],
               root := Object.destroy o s.root,
               events := s.events ++
                 [Event.beginRemoveRows parentIndex r r, Event.destroyed o,
                  Event.endRemoveRows, Event.changed] }
       | _, _ => .undefinedBehaviour)
    | .preconditionViolation st => .preconditionViolation st
    | .undefinedBehaviour => .undefinedBehaviour

/-- The loop `for (Object* o : objects) parentObject->addChild(o, position);` of
`Scene::insertRows`, with the mutation markers it leaves in the trace. -/
def insertLoop (par : Ptr) (position : Int) : List Object → Object × List Event → Object × List Event
  | [], acc => acc
  | o :: os, (tree, ev) =>
    insertLoop par position os (Object.addChild par position o tree, ev ++ [Event.attached o.ptr par])

/-- Source: `Scene::insertRows` (scene.cpp, lines 150 to 159). -/
def insertRows (s : Scene) (position : Int) (parent : QModelIndex) (objects : List Object) :
    Outcome Scene :=
  let parentObject := getObject s parent
  if !objects.isEmpty && (Object.lookup parentObject s.root).isNone then .undefinedBehaviour
  else
    let r := insertLoop parentObject position objects (s.root, s.events)
    .ok { s with
          root := r.1,
          events := r.2 ++
            [Event.beginInsertRows parent position
               (wrapInt32 (wrapInt32 (position + (objects.length : Int)) - 1)),
             Event.endInsertRows] }

/-- Source: `Scene::insertRow` (scene.cpp, lines 142 to 147). -/
def insertRow (s : Scene) (position : Int) (parent : QModelIndex) (object : Object) :
    Outcome Scene :=
  insertRows s position parent [object]

/-- Source: `Scene::removeRows` (scene.cpp, lines 161 to 171). -/
def removeRows (s : Scene) (position rows : Int) (parent : QModelIndex) : Outcome (Bool × Scene) :=
  let parentItem := getObject s parent
  match Object.lookup parentItem s.root with
  | none => .undefinedBehaviour
  | some par =>
    let success := Object.validRange position rows par.children
    let gone := if success then Object.removedRange position rows par.children else []
    .ok (success,
      { s with
        root := Object.removeChildren parentItem position rows s.root,
        events := s.events ++
          [Event.beginRemoveRows parent position (wrapInt32 (wrapInt32 (position + rows) - 1))] ++
          gone.map (fun c => Event.destroyed c.ptr) ++ [Event.endRemoveRows] })

/-- Source: `Scene::mimeTypes` (scene.cpp, lines 187 to 192). -/
def mimeTypes : List String := ["application/Object"]

/-- The objects that `Scene::mimeData` collects: one per valid handle. -/
def collectObjects (s : Scene) : List QModelIndex → Option (List Object)
  | [] => some []
  | i :: rest =>
    if i.isValid then
      match Object.lookup (getObject s i) s.root, collectObjects s rest with
      | some o, some os => some (o :: os)
      | _, _ => none
    else collectObjects s rest

/-- Source: `Scene::mimeData` (scene.cpp, lines 194 to 215). The payload is the list of
the dragged objects; the static list `_draggedObjects` is replaced by the valid handles. -/
def mimeData (s : Scene) (indexes : List QModelIndex) : Outcome (QMimeData × Scene) :=
  match collectObjects s indexes with
  | some objects =>
    .ok ({ formats := ["application/Object"], objects := objects },
         { s with draggedObjects := indexes.filter (fun i => i.isValid) })
  | none => .undefinedBehaviour

/-- The loop `for (Object* o : dropped) insertRow(row, parent, o);` of
`Scene::dropMimeData`. -/
def dropInsertLoop (row : Int) (parent : QModelIndex) : Scene → List Object → Outcome Scene
  | s, [] => .ok s
  | s, o :: os =>
    match insertRow s row parent o with
    | .ok s1 => dropInsertLoop row parent s1 os
    | .preconditionViolation st => .preconditionViolation st
    | .undefinedBehaviour => .undefinedBehaviour

/-- The loop `for (QModelIndex i : _draggedObjects) removeObject(i);` of
`Scene::dropMimeData`. -/
def dropRemoveLoop : Scene → List QModelIndex → Outcome Scene
  | s, [] => .ok s
  | s, i :: is =>
    match removeObject s i with
    | .ok s1 => dropRemoveLoop s1 is
    | .preconditionViolation st => .preconditionViolation st
    | .undefinedBehaviour => .undefinedBehaviour

/-- Source: `Scene::dropMimeData` (scene.cpp, lines 218 to 247). The objects that the
stream decodes to are `data.objects`. -/
def dropMimeData (s : Scene) (data : QMimeData) (action : DropAction) (row column : Int)
    (parent : QModelIndex) : Outcome (Bool × Scene) :=
  if action = DropAction.IgnoreAction then .ok (true, s)
  else if action ≠ DropAction.MoveAction ∧ action ≠ DropAction.CopyAction then .ok (false, s)
  else if !data.hasFormat "application/Object" then .ok (false, s)
  else if column > 0 then .ok (false, s)
  else
    match dropInsertLoop row parent s data.objects with
    | .ok s1 =>
      if action = DropAction.MoveAction then
        (match dropRemoveLoop s1 s1.draggedObjects with
         | .ok s2 => .ok (false, { s2 with events := s2.events ++ [Event.changed] })
         | .preconditionViolation st => .preconditionViolation st
         | .undefinedBehaviour => .undefinedBehaviour)
      else .ok (false, { s1 with events := s1.events ++ [Event.changed] })
    | .preconditionViolation st => .preconditionViolation st
    | .undefinedBehaviour => .undefinedBehaviour

end Scene

open Object Scene

/-! ## Predicates, call sequences and concrete scenes used in the statements -/

/-- A document holding three objects with the ids 1, 2 and 3; the counter stands at 4. -/
def scene123 : Scene :=
  { root := Object.mk 0 0 [Object.mk 10 1 [], Object.mk 11 2 [], Object.mk 12 3 []],
    freeIds := [], objectCounter := 4, objects := [(1, 10), (2, 11), (3, 12)],
    draggedObjects := [], events := [] }

/-- A newly constructed object, not yet part of any document. -/
def newObject : Object := Object.mk 20 0 []

/-- The scene `scene123` after `removeObject` of the object with id 3. -/
def sceneFreed3 : Scene :=
  { root := Object.mk 0 0 [Object.mk 10 1 [], Object.mk 11 2 []],
    freeIds := [3], objectCounter := 4, objects := [(1, 10), (2, 11), (3, 12)],
    draggedObjects := [],
    events := [Event.beginRemoveRows QModelIndex.invalid 2 2, Event.destroyed 12,
               Event.endRemoveRows, Event.changed] }

/-- The scene `sceneFreed3` after `removeObject` of the object with id 1. -/
def sceneFreed31 : Scene :=
  { root := Object.mk 0 0 [Object.mk 11 2 []],
    freeIds := [3, 1], objectCounter := 4, objects := [(1, 10), (2, 11), (3, 12)],
    draggedObjects := [],
    events := [Event.beginRemoveRows QModelIndex.invalid 2 2, Event.destroyed 12,
               Event.endRemoveRows, Event.changed,
               Event.beginRemoveRows QModelIndex.invalid 0 0, Event.destroyed 10,
               Event.endRemoveRows, Event.changed] }

/-- A scene whose second object owns a child: ids 1, 2 (with a child of id 7) and 3. -/
def sceneNested : Scene :=
  { root := Object.mk 0 0 [Object.mk 10 1 [], Object.mk 11 2 [Object.mk 13 7 []], Object.mk 12 3 []],
    freeIds := [], objectCounter := 4, objects := [(1, 10), (2, 11), (3, 12)],
    draggedObjects := [], events := [] }

/-- Two newly constructed objects handed to `insertRows`. -/
def objectA : Object := Object.mk 21 5 []

/-- The second of the two objects handed to `insertRows`. -/
def objectB : Object := Object.mk 22 6 []

/-- The scene `scene123` after `insertRows(1, QModelIndex(), [objectA, objectB])`. -/
def sceneInsertedAB : Scene :=
  { root := Object.mk 0 0
      [Object.mk 10 1 [], Object.mk 22 6 [], Object.mk 21 5 [], Object.mk 11 2 [],
       Object.mk 12 3 []],
    freeIds := [], objectCounter := 4, objects := [(1, 10), (2, 11), (3, 12)],
    draggedObjects := [],
    events := [Event.attached 21 0, Event.attached 22 0,
               Event.beginInsertRows QModelIndex.invalid 1 2, Event.endInsertRows] }

/-- A call of `addObject` or of `removeObject`. -/
inductive Op where
  | add (o : Object)
  | remove (idx : QModelIndex)

namespace Op

/-- The effect of a call on the scene. -/
def apply (s : Scene) : Op → Outcome Scene
  | add o => .ok (addObject s o)
  | remove idx => removeObject s idx

/-- The conditions under which a call is made: `addObject` receives a newly constructed
object (an address that is not in the tree, no children yet), `removeObject` receives a
valid handle of a live object (a node of the tree other than the root). -/
def admissible (s : Scene) : Op → Bool
  | add o => decide (o.ptr ∉ ptrs s.root) && o.children.isEmpty
  | remove idx =>
    idx.isValid &&
      (match idx.internalPointer with
       | some p => decide (p ∈ ptrsList s.root.children)
       | none => false)

end Op

/-- The scene after a sequence of calls, or the first failure. -/
def run : Scene → List Op → Outcome Scene
  | s, [] => .ok s
  | s, op :: ops =>
    match op.apply s with
    | .ok s1 => run s1 ops
    | .preconditionViolation st => .preconditionViolation st
    | .undefinedBehaviour => .undefinedBehaviour

/-- Whether every call of the sequence is made under the conditions of `Op.admissible`, in
the scene that the calls before it have produced. -/
def admissibleRun : Scene → List Op → Bool
  | _, [] => true
  | s, op :: ops =>
    op.admissible s &&
      (match op.apply s with
       | .ok s1 => admissibleRun s1 ops
       | _ => true)

/-- The invariant of the allocator on a scene whose objects are all children of the root. -/
structure AllocatorInvariant (s : Scene) : Prop where
  flat : ∀ c ∈ s.root.children, c.children = []
  distinctPtrs : (ptrs s.root).Nodup
  distinctIds : (s.root.children.map Object.id).Nodup
  liveNotFree : ∀ i ∈ s.root.children.map Object.id, i ∉ s.freeIds
  distinctFree : s.freeIds.Nodup
  belowCounter : ∀ i, i ∈ s.root.children.map Object.id ∨ i ∈ s.freeIds → i < s.objectCounter

/-- A sequence of calls on a fresh scene: three objects are added, the second is removed,
two more are added. -/
def exampleOps : List Op :=
  [Op.add (Object.mk 10 0 []), Op.add (Object.mk 11 0 []), Op.add (Object.mk 12 0 []),
   Op.remove (createIndex 1 0 11), Op.add (Object.mk 13 0 []), Op.add (Object.mk 14 0 [])]

/-- The addresses in the subtree of the node at address `p`; empty when `p` is not live. -/
def subtreePtrs (t : Object) (p : Ptr) : List Ptr :=
  match lookup p t with
  | some x => ptrs x
  | none => []

/-- Neither of the nodes at `a` and `b` lies in the subtree of the other; since a live node
lies in its own subtree, this also says that `a` and `b` are different nodes. -/
def nonNested (t : Object) (a b : Ptr) : Prop :=
  b ∉ subtreePtrs t a ∧ a ∉ subtreePtrs t b

instance (t : Object) (a b : Ptr) : Decidable (nonNested t a b) := by
  unfold nonNested
  infer_instance

/-- The id of the node at address `p` (0 when `p` is not live). -/
def idOf (t : Object) (p : Ptr) : Int :=
  match lookup p t with
  | some x => x.id
  | none => 0

/-- The handle carries the address of a live node other than the root. -/
def denotesLiveNode (t : Object) (h : QModelIndex) : Bool :=
  match h.internalPointer with
  | some p => decide (p ∈ ptrsList t.children)
  | none => false

/-- The addresses carried by the valid handles of a list of handles, in order. -/
def draggedPtrs (indexes : List QModelIndex) : List Ptr :=
  (indexes.filter (fun i => i.isValid)).filterMap (fun i => i.internalPointer)

namespace Event

/-- The object whose attachment the event marks. -/
def attachedObject : Event → Option Ptr
  | attached o _ => some o
  | _ => none

/-- The object whose destruction the event marks. -/
def destroyedObject : Event → Option Ptr
  | destroyed o => some o
  | _ => none

end Event

/-- The payload of a drag of the object with id 3 of `scene123`: a copy of the object at a
freshly allocated address. -/
def payloadCopyOf3 : QMimeData :=
  { formats := ["application/Object"], objects := [Object.mk 30 3 []] }

/-- The scene `scene123` after `mimeData` has captured the handle of the object with id 3. -/
def sceneDragging3 : Scene :=
  { scene123 with draggedObjects := [createIndex 2 0 12] }

/-! ## Basic facts about the tree -/

namespace Object

@[simp] theorem ptr_mk (p i cs) : (mk p i cs).ptr = p := rfl

@[simp] theorem id_mk (p i cs) : (mk p i cs).id = i := rfl

@[simp] theorem children_mk (p i cs) : (mk p i cs).children = cs := rfl

theorem ptrs_eq (o : Object) : ptrs o = o.ptr :: ptrsList o.children := by
  cases o; simp [ptrs]

theorem ptrsList_append (as bs : List Object) :
    ptrsList (as ++ bs) = ptrsList as ++ ptrsList bs := by
  induction as with
  | nil => simp [ptrsList]
  | cons a as ih => simp [ptrsList, ih]

theorem mem_ptrsList {p : Ptr} {cs : List Object} :
    p ∈ ptrsList cs ↔ ∃ c ∈ cs, p ∈ ptrs c := by
  induction cs with
  | nil => simp [ptrsList]
  | cons a as ih => simp [ptrsList, ih]

theorem ptr_mem_ptrs (o : Object) : o.ptr ∈ ptrs o := by
  rw [ptrs_eq]; simp

theorem mem_ptrsList_of_mem_map {p : Ptr} {cs : List Object} (h : p ∈ cs.map ptr) :
    p ∈ ptrsList cs := by
  rw [mem_ptrsList]
  obtain ⟨c, hc, rfl⟩ := List.mem_map.1 h
  exact ⟨c, hc, ptr_mem_ptrs c⟩

mutual
theorem lookup_some (p : Ptr) : ∀ (t x : Object), lookup p t = some x → x.ptr = p ∧ p ∈ ptrs t
  | mk q i cs, x, h => by
    simp only [lookup] at h
    split at h
    · rename_i hq
      cases h
      simp [hq, ptrs]
    · have := lookupList_some p cs x h
      simp [ptrs, this]
theorem lookupList_some (p : Ptr) :
    ∀ (cs : List Object) (x : Object), lookupList p cs = some x → x.ptr = p ∧ p ∈ ptrsList cs
  | [], x, h => by simp [lookupList] at h
  | o :: os, x, h => by
    simp only [lookupList] at h
    split at h
    · rename_i y hy
      cases h
      have := lookup_some p o _ hy
      simp [ptrsList, this]
    · have := lookupList_some p os x h
      simp [ptrsList, this]
end

mutual
theorem lookup_of_mem (p : Ptr) : ∀ (t : Object), p ∈ ptrs t → ∃ x, lookup p t = some x
  | mk q i cs, h => by
    simp only [lookup]
    by_cases hq : q = p
    · simp [hq]
    · simp only [hq, if_false]
      simp only [ptrs, List.mem_cons] at h
      rcases h with h | h
      · exact absurd h.symm hq
      · exact lookupList_of_mem p cs h
theorem lookupList_of_mem (p : Ptr) :
    ∀ (cs : List Object), p ∈ ptrsList cs → ∃ x, lookupList p cs = some x
  | [], h => by simp [ptrsList] at h
  | o :: os, h => by
    simp only [lookupList]
    cases hl : lookup p o with
    | some y => exact ⟨y, rfl⟩
    | none =>
      simp only [ptrsList, List.mem_append] at h
      rcases h with h | h
      · obtain ⟨x, hx⟩ := lookup_of_mem p o h
        rw [hx] at hl; cases hl
      · exact lookupList_of_mem p os h
end

theorem lookup_self (t : Object) : lookup t.ptr t = some t := by
  cases t; simp [lookup]

mutual
theorem parentOf_of_mem (p : Ptr) :
    ∀ (t : Object), p ∈ ptrsList t.children → ∃ par, parentOf p t = some par
  | mk q i cs, h => by
    simp only [parentOf]
    by_cases hm : p ∈ cs.map ptr
    · simp [hm]
    · simp only [hm, if_false]
      exact parentOfList_of_mem p cs h hm
theorem parentOfList_of_mem (p : Ptr) :
    ∀ (cs : List Object), p ∈ ptrsList cs → p ∉ cs.map ptr → ∃ par, parentOfList p cs = some par
  | [], h, _ => by simp [ptrsList] at h
  | o :: os, h, hm => by
    simp only [parentOfList]
    cases hl : parentOf p o with
    | some y => exact ⟨y, rfl⟩
    | none =>
      simp only [List.map_cons, List.mem_cons, not_or] at hm
      simp only [ptrsList, List.mem_append] at h
      rcases h with h | h
      · rw [ptrs_eq] at h
        simp only [List.mem_cons] at h
        rcases h with h | h
        · exact absurd h hm.1
        · obtain ⟨x, hx⟩ := parentOf_of_mem p o h
          rw [hx] at hl; cases hl
      · exact parentOfList_of_mem p os h hm.2
end

mutual
theorem parentOf_some (p : Ptr) :
    ∀ (t par : Object), parentOf p t = some par →
      p ∈ par.children.map ptr ∧ (par = t ∨ par.ptr ∈ ptrsList t.children)
  | mk q i cs, par, h => by
    simp only [parentOf] at h
    split at h
    · rename_i hm
      cases h
      exact ⟨hm, Or.inl rfl⟩
    · have := parentOfList_some p cs par h
      exact ⟨this.1, Or.inr this.2⟩
theorem parentOfList_some (p : Ptr) :
    ∀ (cs : List Object) (par : Object), parentOfList p cs = some par →
      p ∈ par.children.map ptr ∧ par.ptr ∈ ptrsList cs
  | [], par, h => by simp [parentOfList] at h
  | o :: os, par, h => by
    simp only [parentOfList] at h
    split at h
    · rename_i y hy
      cases h
      have := parentOf_some p o _ hy
      refine ⟨this.1, ?_⟩
      simp only [ptrsList, List.mem_append]
      left
      rcases this.2 with h2 | h2
      · rw [h2]; exact ptr_mem_ptrs o
      · rw [ptrs_eq]; exact List.mem_cons_of_mem _ h2
    · have := parentOfList_some p os par h
      refine ⟨this.1, ?_⟩
      simp only [ptrsList, List.mem_append]
      exact Or.inr this.2
end

theorem row_of_mem (t : Object) (p : Ptr) (h : p ∈ ptrsList t.children) :
    ∃ par, parentOf p t = some par ∧ row t p = some ((par.children.map ptr).indexOf p : Int) := by
  obtain ⟨par, hpar⟩ := parentOf_of_mem p t h
  exact ⟨par, hpar, by simp [row, hpar]⟩

end Object

namespace Scene

/-- The handle of the parent of a live node other than the root is always defined. -/
theorem parent_ok (s : Scene) (idx : QModelIndex) (p : Ptr)
    (hv : idx.isValid = true) (hp : idx.internalPointer = some p)
    (hlive : p ∈ ptrsList s.root.children) :
    ∃ pi, parent s idx = .ok pi := by
  have hget : getObject s idx = p := by simp [getObject, hv, hp]
  have hmem : p ∈ ptrs s.root := by rw [ptrs_eq]; exact List.mem_cons_of_mem _ hlive
  obtain ⟨x, hx⟩ := lookup_of_mem p s.root hmem
  obtain ⟨par, hpar⟩ := parentOf_of_mem p s.root hlive
  simp only [parent, hv, hget, hx, hpar, Bool.not_true, Bool.false_eq_true, if_false]
  by_cases hr : par.ptr = s.root.ptr
  · simp [hr]
  · simp only [hr, if_false]
    have h2 := (parentOf_some p s.root par hpar).2
    rcases h2 with h2 | h2
    · exact absurd (by rw [h2]) hr
    · obtain ⟨pp, _, hrow⟩ := row_of_mem s.root par.ptr h2
      simp [hrow]

/-- The result of `removeObject` on a valid handle of a live node other than the root. -/
theorem removeObject_ok (s : Scene) (idx : QModelIndex) (p : Ptr)
    (hv : idx.isValid = true) (hp : idx.internalPointer = some p)
    (hlive : p ∈ ptrsList s.root.children) :
    ∃ pi r obj, parent s idx = .ok pi ∧ row s.root p = some r ∧ lookup p s.root = some obj ∧
      removeObject s idx = .ok { s with
        freeIds := s.freeIds ++ [obj.id],
        root := destroy p s.root,
        events := s.events ++
          [Event.beginRemoveRows pi r r, Event.destroyed p, Event.endRemoveRows, Event.changed] } := by
  have hget : getObject s idx = p := by simp [getObject, hv, hp]
  have hmem : p ∈ ptrs s.root := by rw [ptrs_eq]; exact List.mem_cons_of_mem _ hlive
  obtain ⟨x, hx⟩ := lookup_of_mem p s.root hmem
  obtain ⟨par, _, hrow⟩ := row_of_mem s.root p hlive
  obtain ⟨pi, hpi⟩ := parent_ok s idx p hv hp hlive
  refine ⟨pi, _, x, hpi, hrow, hx, ?_⟩
  simp [removeObject, hv, hget, hpi, hx, hrow]

end Scene

theorem wrapInt32_of_inRange (x : Int) (h1 : INT_MIN ≤ x) (h2 : x ≤ INT_MAX) : wrapInt32 x = x := by
  unfold wrapInt32
  unfold INT_MIN at h1
  unfold INT_MAX at h2
  omega

namespace Object

@[simp] theorem children_setParentRoot (root o : Object) :
    (setParentRoot root o).children = root.children ++ [o] := by
  cases root; rfl

@[simp] theorem ptr_setParentRoot (root o : Object) : (setParentRoot root o).ptr = root.ptr := by
  cases root; rfl

@[simp] theorem id_setParentRoot (root o : Object) : (setParentRoot root o).id = root.id := by
  cases root; rfl

@[simp] theorem ptr_setId (o : Object) (i : Int) : (o.setId i).ptr = o.ptr := by cases o; rfl

@[simp] theorem id_setId (o : Object) (i : Int) : (o.setId i).id = i := by cases o; rfl

@[simp] theorem children_setId (o : Object) (i : Int) : (o.setId i).children = o.children := by
  cases o; rfl

end Object

namespace Scene

theorem addObject_children (s : Scene) (o : Object) :
    (addObject s o).root.children = s.root.children ++ [o.setId (allocatedId s)] := by
  simp [addObject]

end Scene

/-- C1: `addObject` gives the new object the id at the head of the free-id queue when the
queue is not empty (the id is dequeued, the counter keeps its value), and the current value
of the counter otherwise (the counter then advances by one, as long as it stays in the
range of `int`). After `removeObject` of a live object with id `k` in a scene with an empty
queue, the next `addObject` gives the new object the id `k` and leaves the counter alone. -/
theorem addObject_allocates_id (s : Scene) (o : Object) :
    (∀ k rest, s.freeIds = k :: rest →
      (addObject s o).root.children = s.root.children ++ [o.setId k] ∧
      (addObject s o).freeIds = rest ∧
      (addObject s o).objectCounter = s.objectCounter) ∧
    (s.freeIds = [] →
      (addObject s o).root.children = s.root.children ++ [o.setId s.objectCounter] ∧
      (addObject s o).freeIds = [] ∧
      (INT_MIN ≤ s.objectCounter → s.objectCounter < INT_MAX →
        (addObject s o).objectCounter = s.objectCounter + 1)) ∧
    (∀ (idx : QModelIndex) (p : Ptr) (obj : Object),
      s.freeIds = [] → idx.isValid = true → idx.internalPointer = some p →
      p ∈ ptrsList s.root.children → lookup p s.root = some obj →
      ∃ s1, removeObject s idx = .ok s1 ∧
        (addObject s1 o).root.children = s1.root.children ++ [o.setId obj.id] ∧
        (addObject s1 o).freeIds = [] ∧
        (addObject s1 o).objectCounter = s.objectCounter) := by
  refine ⟨?_, ?_, ?_⟩
  · intro k rest h
    refine ⟨?_, ?_, ?_⟩
    · rw [addObject_children]; simp [allocatedId, h]
    · simp [addObject, h]
    · simp [addObject, h]
  · intro h
    refine ⟨?_, ?_, ?_⟩
    · rw [addObject_children]; simp [allocatedId, h]
    · simp [addObject, h]
    · intro h1 h2
      simp only [addObject, h]
      apply wrapInt32_of_inRange
      · omega
      · unfold INT_MAX at *; omega
  · intro idx p obj hq hv hp hlive hobj
    obtain ⟨pi, r, obj2, _, _, hl, hrem⟩ := removeObject_ok s idx p hv hp hlive
    rw [hobj] at hl
    cases hl
    refine ⟨_, hrem, ?_, ?_, ?_⟩
    · rw [addObject_children]; simp [allocatedId, hq]
    · simp [addObject, hq]
    · simp [addObject, hq]

/-- C1, at a concrete scene: with the ids 1, 2, 3 live and the counter at 4, removing the
object with id 3 and adding a new object gives the new object the id 3 (not 4). -/
theorem addObject_allocates_id_witness :
    (∃ s1, removeObject scene123 (createIndex 2 0 12) = .ok s1 ∧
      (addObject s1 newObject).root.children = s1.root.children ++ [newObject.setId 3] ∧
      (addObject s1 newObject).freeIds = [] ∧
      (addObject s1 newObject).objectCounter = 4) ∧
    (addObject scene123 newObject).objectCounter = 4 + 1 ∧
    newObject.setId 3 ≠ newObject.setId 4 :=
  ⟨(addObject_allocates_id scene123 newObject).2.2 (createIndex 2 0 12) 12 (Object.mk 12 3 [])
      (by decide) (by decide) (by decide) (by decide) (by decide),
   ((addObject_allocates_id scene123 newObject).2.1 (by decide)).2.2 (by decide) (by decide),
   by decide⟩

/-- C3, refuted as stated: after freeing the id 3 and then the id 1 the free-id queue is
`[3, 1]`, and `addObject` assigns 3, which is not the smallest queued id. -/
theorem smallest_id_reuse_counterexample :
    removeObject scene123 (createIndex 2 0 12) = .ok sceneFreed3 ∧
    removeObject sceneFreed3 (createIndex 0 0 10) = .ok sceneFreed31 ∧
    sceneFreed31.freeIds = [3, 1] ∧
    (addObject sceneFreed31 newObject).root.children =
      sceneFreed31.root.children ++ [newObject.setId 3] ∧
    ¬ (∀ x ∈ sceneFreed31.freeIds, (3 : Int) ≤ x) := by
  decide

/-- C3, amended: when the free-id queue is not empty, `addObject` assigns the id at its
head, that is the id that was freed first; this is the smallest queued id whenever the
queue is in ascending order. -/
theorem addObject_reuses_oldest_freed_id (s : Scene) (o : Object) (k : Int) (rest : List Int)
    (h : s.freeIds = k :: rest) :
    (addObject s o).root.children = s.root.children ++ [o.setId k] ∧
    (addObject s o).freeIds = rest ∧
    (List.Sorted (· ≤ ·) s.freeIds → ∀ x ∈ s.freeIds, k ≤ x) := by
  refine ⟨?_, ?_, ?_⟩
  · rw [addObject_children]; simp [allocatedId, h]
  · simp [addObject, h]
  · intro hs x hx
    rw [h] at hs hx
    rcases List.mem_cons.1 hx with rfl | hx
    · exact le_refl _
    · exact List.rel_of_sorted_cons hs x hx

/-- C3, amended, at the queue `[3, 1]`: the id assigned is 3. -/
theorem addObject_reuses_oldest_freed_id_witness :
    (addObject sceneFreed31 newObject).root.children =
      sceneFreed31.root.children ++ [newObject.setId 3] ∧
    (addObject sceneFreed31 newObject).freeIds = [1] ∧
    (List.Sorted (· ≤ ·) sceneFreed31.freeIds → ∀ x ∈ sceneFreed31.freeIds, (3 : Int) ≤ x) :=
  addObject_reuses_oldest_freed_id sceneFreed31 newObject 3 [1] (by decide)

/-- C6: `addObject` leaves the root with its former children followed by the new object,
and the trace grows by exactly: begin-insert on the root handle for the rows `[n, n]`, the
attachment of the object to the root, end-insert, content-changed. -/
theorem addObject_appends_and_brackets (s : Scene) (o : Object) :
    (addObject s o).root.children = s.root.children ++ [o.setId (allocatedId s)] ∧
    (addObject s o).root.ptr = s.root.ptr ∧
    (addObject s o).root.id = s.root.id ∧
    (addObject s o).root.child (s.root.children.length : Int) = some (o.setId (allocatedId s)) ∧
    (addObject s o).events = s.events ++
      [Event.beginInsertRows QModelIndex.invalid (s.root.children.length : Int)
          (s.root.children.length : Int),
       Event.attached o.ptr s.root.ptr,
       Event.endInsertRows,
       Event.changed] := by
  refine ⟨addObject_children s o, ?_, ?_, ?_, ?_⟩
  · simp [addObject]
  · simp [addObject]
  · simp [Object.child, addObject_children]
  · simp [addObject, Object.childCount]

/-- C8, refuted as stated: a drop with the action `IgnoreAction` whose payload does not
carry the transfer format is reported as accepted (the call returns `true`). -/
theorem refused_drop_counterexample :
    QMimeData.hasFormat ⟨[], []⟩ "application/Object" = false ∧
    dropMimeData scene123 ⟨[], []⟩ DropAction.IgnoreAction 0 1 QModelIndex.invalid =
      .ok (true, scene123) := by
  decide

/-- C8, amended: a call of `dropMimeData` whose action is not `IgnoreAction` and whose
action is neither `MoveAction` nor `CopyAction`, or whose payload lacks the transfer format,
or whose column is greater than 0, returns `false` and leaves the whole scene (tree,
free-id queue, counter, dragged handles, trace) as it was; a call with the action
`IgnoreAction` returns `true` and leaves the scene as it was. -/
theorem refused_drop_changes_nothing (s : Scene) (data : QMimeData) (action : DropAction)
    (row column : Int) (parent : QModelIndex) :
    (action ≠ DropAction.IgnoreAction →
      ((action ≠ DropAction.MoveAction ∧ action ≠ DropAction.CopyAction) ∨
        data.hasFormat "application/Object" = false ∨ column > 0) →
      dropMimeData s data action row column parent = .ok (false, s)) ∧
    (action = DropAction.IgnoreAction →
      dropMimeData s data action row column parent = .ok (true, s)) := by
  constructor
  · intro hi h
    unfold dropMimeData
    rw [if_neg hi]
    by_cases h1 : action ≠ DropAction.MoveAction ∧ action ≠ DropAction.CopyAction
    · rw [if_pos h1]
    · rw [if_neg h1]
      by_cases h2 : data.hasFormat "application/Object" = false
      · simp [h2]
      · simp only [Bool.not_eq_false] at h2
        simp only [h2, Bool.not_true, Bool.false_eq_true, if_false]
        rcases h with h | h | h
        · exact absurd h h1
        · rw [h2] at h; cases h
        · rw [if_pos h]
  · intro hi
    unfold dropMimeData
    rw [if_pos hi]

/-- C8, amended, at concrete calls: a link drop, a copy drop without the format and a move
drop on column 1 are refused without any change. -/
theorem refused_drop_changes_nothing_witness :
    dropMimeData scene123 ⟨["application/Object"], [newObject]⟩ DropAction.LinkAction 0 0
      QModelIndex.invalid = .ok (false, scene123) ∧
    dropMimeData scene123 ⟨[], [newObject]⟩ DropAction.CopyAction 0 0
      QModelIndex.invalid = .ok (false, scene123) ∧
    dropMimeData scene123 ⟨["application/Object"], [newObject]⟩ DropAction.MoveAction 0 1
      QModelIndex.invalid = .ok (false, scene123) ∧
    dropMimeData scene123 ⟨[], []⟩ DropAction.IgnoreAction 0 1
      QModelIndex.invalid = .ok (true, scene123) :=
  ⟨(refused_drop_changes_nothing scene123 ⟨["application/Object"], [newObject]⟩
      DropAction.LinkAction 0 0 QModelIndex.invalid).1 (by decide) (Or.inl (by decide)),
   (refused_drop_changes_nothing scene123 ⟨[], [newObject]⟩
      DropAction.CopyAction 0 0 QModelIndex.invalid).1 (by decide) (Or.inr (Or.inl (by decide))),
   (refused_drop_changes_nothing scene123 ⟨["application/Object"], [newObject]⟩
      DropAction.MoveAction 0 1 QModelIndex.invalid).1 (by decide) (Or.inr (Or.inr (by decide))),
   (refused_drop_changes_nothing scene123 ⟨[], []⟩
      DropAction.IgnoreAction 0 1 QModelIndex.invalid).2 (by decide)⟩

/-- C10: `removeObject` on a valid handle of a live node appends the id of that node, and
nothing else, to the free-id queue and keeps the counter, whatever the node owns; and
`removeRows` and `insertRows` keep the free-id queue and the counter on every input (they
return unless the parent handle holds a dangling address). -/
theorem only_removed_id_is_recycled (s : Scene) :
    (∀ (idx : QModelIndex) (p : Ptr),
      idx.isValid = true → idx.internalPointer = some p → p ∈ ptrsList s.root.children →
      ∃ s1 obj, removeObject s idx = .ok s1 ∧ lookup p s.root = some obj ∧
        s1.freeIds = s.freeIds ++ [obj.id] ∧ s1.objectCounter = s.objectCounter) ∧
    (∀ (position rows : Int) (parent : QModelIndex),
      (∀ b s1, removeRows s position rows parent = .ok (b, s1) →
        s1.freeIds = s.freeIds ∧ s1.objectCounter = s.objectCounter) ∧
      (∀ st, removeRows s position rows parent ≠ .preconditionViolation st) ∧
      (getObject s parent ∈ ptrs s.root →
        ∃ b s1, removeRows s position rows parent = .ok (b, s1))) ∧
    (∀ (position : Int) (parent : QModelIndex) (objects : List Object),
      (∀ s1, insertRows s position parent objects = .ok s1 →
        s1.freeIds = s.freeIds ∧ s1.objectCounter = s.objectCounter) ∧
      (∀ st, insertRows s position parent objects ≠ .preconditionViolation st) ∧
      (getObject s parent ∈ ptrs s.root →
        ∃ s1, insertRows s position parent objects = .ok s1)) := by
  refine ⟨?_, ?_, ?_⟩
  · intro idx p hv hp hlive
    obtain ⟨pi, r, obj, _, _, hl, hrem⟩ := removeObject_ok s idx p hv hp hlive
    exact ⟨_, obj, hrem, hl, rfl, rfl⟩
  · intro position rows parent
    refine ⟨?_, ?_, ?_⟩
    · intro b s1 h
      unfold removeRows at h
      cases hl : lookup (getObject s parent) s.root with
      | none => simp [hl] at h
      | some par =>
        simp only [hl] at h
        cases h
        exact ⟨rfl, rfl⟩
    · intro st h
      unfold removeRows at h
      cases hl : lookup (getObject s parent) s.root with
      | none => simp [hl] at h
      | some par => simp [hl] at h
    · intro hm
      obtain ⟨par, hpar⟩ := lookup_of_mem _ _ hm
      unfold removeRows
      simp only [hpar]
      exact ⟨_, _, rfl⟩
  · intro position parent objects
    refine ⟨?_, ?_, ?_⟩
    · intro s1 h
      unfold insertRows at h
      simp only at h
      split at h
      · cases h
      · cases h
        exact ⟨rfl, rfl⟩
    · intro st h
      unfold insertRows at h
      simp only at h
      split at h
      · cases h
      · cases h
    · intro hm
      obtain ⟨par, hpar⟩ := lookup_of_mem _ _ hm
      unfold insertRows
      simp only [hpar, Option.isNone_some, Bool.and_false, Bool.false_eq_true, if_false]
      exact ⟨_, rfl⟩

/-- C10, at a concrete scene: removing the object with id 2, which owns a child with id 7,
puts only the id 2 into the free-id queue. -/
theorem only_removed_id_is_recycled_witness :
    ∃ s1 obj, removeObject sceneNested (createIndex 1 0 11) = .ok s1 ∧
      lookup 11 sceneNested.root = some obj ∧
      s1.freeIds = sceneNested.freeIds ++ [obj.id] ∧
      s1.objectCounter = sceneNested.objectCounter :=
  (only_removed_id_is_recycled sceneNested).1 (createIndex 1 0 11) 11
    (by decide) (by decide) (by decide)

/-- C4, evaluated on the code: `insertRows(1, QModelIndex(), [objectA, objectB])` leaves
`objectB` at row 1 and `objectA` at row 2, the reverse of the order of the caller. -/
theorem insertRows_reverses_caller_order :
    insertRows scene123 1 QModelIndex.invalid [objectA, objectB] = .ok sceneInsertedAB ∧
    index sceneInsertedAB 1 0 QModelIndex.invalid = .ok (createIndex 1 0 objectB.ptr) ∧
    index sceneInsertedAB 2 0 QModelIndex.invalid = .ok (createIndex 2 0 objectA.ptr) ∧
    createIndex 1 0 objectB.ptr ≠ createIndex 1 0 objectA.ptr := by
  decide

/-! ## Subtrees and distinct addresses -/

namespace Object

theorem lookup_none_of_not_mem {p : Ptr} {t : Object} (h : p ∉ ptrs t) : lookup p t = none := by
  cases hl : lookup p t with
  | none => rfl
  | some x => exact absurd (lookup_some p t x hl).2 h

theorem lookupList_none_of_not_mem {p : Ptr} {cs : List Object} (h : p ∉ ptrsList cs) :
    lookupList p cs = none := by
  cases hl : lookupList p cs with
  | none => rfl
  | some x => exact absurd (lookupList_some p cs x hl).2 h

theorem lookup_mk_of_ne {p q : Ptr} {i : Int} {cs : List Object} (h : q ≠ p) :
    lookup p (mk q i cs) = lookupList p cs := by
  simp [lookup, h]

theorem lookup_eq_lookupList_children {p : Ptr} {t : Object} (h : t.ptr ≠ p) :
    lookup p t = lookupList p t.children := by
  cases t; simp [lookup] at *; intro h2; exact absurd h2 h

mutual
theorem lookup_sublist (p : Ptr) :
    ∀ (t x : Object), lookup p t = some x → x = t ∨ (ptrs x).Sublist (ptrsList t.children)
  | mk q i cs, x, h => by
    simp only [lookup] at h
    split at h
    · cases h; exact Or.inl rfl
    · exact Or.inr (lookupList_sublist p cs x h)
theorem lookupList_sublist (p : Ptr) :
    ∀ (cs : List Object) (x : Object), lookupList p cs = some x → (ptrs x).Sublist (ptrsList cs)
  | [], x, h => by simp [lookupList] at h
  | o :: os, x, h => by
    simp only [lookupList] at h
    simp only [ptrsList]
    split at h
    · rename_i y hy
      cases h
      have h1 : (ptrs x).Sublist (ptrs o) := by
        rcases lookup_sublist p o x hy with h2 | h2
        · rw [h2]
        · rw [ptrs_eq o]; exact List.Sublist.cons _ h2
      exact h1.trans (List.sublist_append_left _ _)
    · exact (lookupList_sublist p os x h).trans (List.sublist_append_right _ _)
end

theorem lookup_sublist_ptrs {p : Ptr} {t x : Object} (h : lookup p t = some x) :
    (ptrs x).Sublist (ptrs t) := by
  rcases lookup_sublist p t x h with h2 | h2
  · rw [h2]
  · rw [ptrs_eq t]; exact List.Sublist.cons _ h2

theorem lookup_nodup {p : Ptr} {t x : Object} (h : lookup p t = some x)
    (hn : (ptrs t).Nodup) : (ptrs x).Nodup :=
  (lookup_sublist_ptrs h).nodup hn

theorem nodup_children {t : Object} (hn : (ptrs t).Nodup) :
    t.ptr ∉ ptrsList t.children ∧ (ptrsList t.children).Nodup := by
  rw [ptrs_eq] at hn
  exact List.nodup_cons.1 hn

theorem nodup_ptrsList_cons {o : Object} {os : List Object} (hn : (ptrsList (o :: os)).Nodup) :
    (ptrs o).Nodup ∧ (ptrsList os).Nodup ∧ ∀ q, q ∈ ptrs o → q ∉ ptrsList os := by
  simp only [ptrsList] at hn
  have := List.nodup_append.1 hn
  exact ⟨this.1, this.2.1, fun q h1 h2 => this.2.2 h1 h2⟩

/-- The strict descendants of a node found in a tree are strict descendants of the tree. -/
theorem lookup_children_subset {p : Ptr} {t x : Object} (h : lookup p t = some x) {q : Ptr}
    (hq : q ∈ ptrsList x.children) : q ∈ ptrsList t.children := by
  rcases lookup_sublist p t x h with h2 | h2
  · rw [← h2]; exact hq
  · apply h2.subset
    rw [ptrs_eq]; exact List.mem_cons_of_mem _ hq

mutual
theorem parentOf_mem_children (a : Ptr) :
    ∀ (t par : Object), parentOf a t = some par → a ∈ ptrsList t.children
  | mk q i cs, par, h => by
    simp only [parentOf] at h
    split at h
    · rename_i hm
      exact mem_ptrsList_of_mem_map hm
    · exact parentOfList_mem a cs par h
theorem parentOfList_mem (a : Ptr) :
    ∀ (cs : List Object) (par : Object), parentOfList a cs = some par → a ∈ ptrsList cs
  | [], par, h => by simp [parentOfList] at h
  | o :: os, par, h => by
    simp only [parentOfList] at h
    simp only [ptrsList, List.mem_append]
    split at h
    · rename_i y hy
      left
      rw [ptrs_eq]
      exact List.mem_cons_of_mem _ (parentOf_mem_children a o y hy)
    · exact Or.inr (parentOfList_mem a os par h)
end

mutual
/-- With distinct addresses, the parent back-reference of a child of `par` is `par`. -/
theorem parentOf_of_lookup (P a : Ptr) :
    ∀ (t par : Object), (ptrs t).Nodup → lookup P t = some par → a ∈ par.children.map ptr →
      parentOf a t = some par
  | mk q i cs, par, hn, h, ha => by
    simp only [lookup] at h
    split at h
    · cases h
      simp only [children_mk] at ha
      simp [parentOf, ha]
    · have := parentOfList_of_lookup P a cs par (nodup_children hn).2 h ha
      simp only [parentOf]
      rw [if_neg this.1]
      exact this.2
theorem parentOfList_of_lookup (P a : Ptr) :
    ∀ (cs : List Object) (par : Object), (ptrsList cs).Nodup → lookupList P cs = some par →
      a ∈ par.children.map ptr → a ∉ cs.map ptr ∧ parentOfList a cs = some par
  | [], par, _, h, _ => by simp [lookupList] at h
  | o :: os, par, hn, h, ha => by
    obtain ⟨hno, hnos, hdisj⟩ := nodup_ptrsList_cons hn
    simp only [lookupList] at h
    split at h
    · rename_i y hy
      cases h
      have h1 := parentOf_of_lookup P a o par hno hy ha
      have h2 : a ∈ ptrsList o.children :=
        lookup_children_subset hy (mem_ptrsList_of_mem_map ha)
      have h3 : a ∈ ptrs o := by rw [ptrs_eq]; exact List.mem_cons_of_mem _ h2
      refine ⟨?_, ?_⟩
      · simp only [List.map_cons, List.mem_cons, not_or]
        refine ⟨?_, ?_⟩
        · intro e
          exact (nodup_children hno).1 (e ▸ h2)
        · intro hm
          exact hdisj a h3 (mem_ptrsList_of_mem_map hm)
      · simp [parentOfList, h1]
    · rename_i hnone
      have ih := parentOfList_of_lookup P a os par hnos h ha
      have h2 : a ∈ ptrsList os :=
        (lookupList_sublist P os par h).subset
          (by rw [ptrs_eq]; exact List.mem_cons_of_mem _ (mem_ptrsList_of_mem_map ha))
      refine ⟨?_, ?_⟩
      · simp only [List.map_cons, List.mem_cons, not_or]
        refine ⟨?_, ih.1⟩
        intro e
        exact hdisj a (e ▸ ptr_mem_ptrs o) h2
      · simp only [parentOfList]
        cases hpo : parentOf a o with
        | some y =>
          have h3 := parentOf_mem_children a o y hpo
          exact absurd h2 (hdisj a (by rw [ptrs_eq]; exact List.mem_cons_of_mem _ h3))
        | none => exact ih.2
end

mutual
/-- With distinct addresses, the parent found by `parentOf` is the node stored at its
address. -/
theorem lookup_of_parentOf (a : Ptr) :
    ∀ (t par : Object), (ptrs t).Nodup → parentOf a t = some par → lookup par.ptr t = some par
  | mk q i cs, par, hn, h => by
    simp only [parentOf] at h
    split at h
    · cases h
      simp [lookup]
    · have h1 := lookupList_of_parentOf a cs par (nodup_children hn).2 h
      have h2 := (lookupList_some _ _ _ h1).2
      have h3 : q ≠ par.ptr := by
        intro e
        exact (nodup_children hn).1 (by simpa [e] using h2)
      simp [lookup, h3, h1]
theorem lookupList_of_parentOf (a : Ptr) :
    ∀ (cs : List Object) (par : Object), (ptrsList cs).Nodup → parentOfList a cs = some par →
      lookupList par.ptr cs = some par
  | [], par, _, h => by simp [parentOfList] at h
  | o :: os, par, hn, h => by
    obtain ⟨hno, hnos, hdisj⟩ := nodup_ptrsList_cons hn
    simp only [parentOfList] at h
    split at h
    · rename_i y hy
      cases h
      simp [lookupList, lookup_of_parentOf a o par hno hy]
    · have ih := lookupList_of_parentOf a os par hnos h
      have h2 := (lookupList_some _ _ _ ih).2
      have h3 : lookup par.ptr o = none :=
        lookup_none_of_not_mem (fun hm => hdisj _ hm h2)
      simp [lookupList, h3, ih]
end

end Object

/-! ## Destruction of a subtree -/

namespace Object

@[simp] theorem ptr_destroy (p : Ptr) (t : Object) : (destroy p t).ptr = t.ptr := by
  cases t; simp [destroy]

@[simp] theorem id_destroy (p : Ptr) (t : Object) : (destroy p t).id = t.id := by
  cases t; simp [destroy]

@[simp] theorem children_destroy (p : Ptr) (t : Object) :
    (destroy p t).children = destroyList p t.children := by
  cases t; simp [destroy]

mutual
theorem destroy_eq_self (p : Ptr) : ∀ (t : Object), p ∉ ptrsList t.children → destroy p t = t
  | mk q i cs, h => by
    simp only [destroy]
    rw [destroyList_eq_self p cs h]
theorem destroyList_eq_self (p : Ptr) :
    ∀ (cs : List Object), p ∉ ptrsList cs → destroyList p cs = cs
  | [], _ => by simp [destroyList]
  | o :: os, h => by
    simp only [ptrsList, List.mem_append, not_or] at h
    have h1 : o.ptr ≠ p := by
      intro e
      exact h.1 (e ▸ ptr_mem_ptrs o)
    have h2 : p ∉ ptrsList o.children := by
      intro hm
      exact h.1 (by rw [ptrs_eq]; exact List.mem_cons_of_mem _ hm)
    simp only [destroyList, h1, if_false]
    rw [destroy_eq_self p o h2, destroyList_eq_self p os h.2]
end

mutual
theorem destroy_sublist (p : Ptr) : ∀ (t : Object), (ptrs (destroy p t)).Sublist (ptrs t)
  | mk q i cs => by
    simp only [destroy, ptrs]
    exact List.Sublist.cons₂ _ (destroyList_sublist p cs)
theorem destroyList_sublist (p : Ptr) :
    ∀ (cs : List Object), (ptrsList (destroyList p cs)).Sublist (ptrsList cs)
  | [] => by simp [destroyList]
  | o :: os => by
    simp only [destroyList]
    split
    · simp only [ptrsList]
      exact (destroyList_sublist p os).trans (List.sublist_append_right _ _)
    · simp only [ptrsList]
      exact List.Sublist.append (destroy_sublist p o) (destroyList_sublist p os)
end

theorem destroy_nodup (p : Ptr) {t : Object} (hn : (ptrs t).Nodup) :
    (ptrs (destroy p t)).Nodup :=
  (destroy_sublist p t).nodup hn

mutual
/-- With distinct addresses, no node of the destroyed subtree remains in the tree. -/
theorem not_mem_destroy (p q : Ptr) :
    ∀ (t obj : Object), (ptrs t).Nodup → t.ptr ≠ p → lookup p t = some obj → q ∈ ptrs obj →
      q ∉ ptrs (destroy p t)
  | mk r i cs, obj, hn, hp, hl, hq => by
    simp only [ptr_mk] at hp
    rw [lookup_mk_of_ne hp] at hl
    have h1 := not_mem_destroyList p q cs obj (nodup_children hn).2 hl hq
    have h2 : q ∈ ptrsList cs := (lookupList_sublist p cs obj hl).subset hq
    have h3 : r ≠ q := by
      intro e
      exact (nodup_children hn).1 (by simpa [e] using h2)
    simp only [destroy, ptrs, List.mem_cons, not_or]
    exact ⟨fun e => h3 e.symm, h1⟩
theorem not_mem_destroyList (p q : Ptr) :
    ∀ (cs : List Object) (obj : Object), (ptrsList cs).Nodup → lookupList p cs = some obj →
      q ∈ ptrs obj → q ∉ ptrsList (destroyList p cs)
  | [], obj, _, hl, _ => by simp [lookupList] at hl
  | o :: os, obj, hn, hl, hq => by
    obtain ⟨hno, hnos, hdisj⟩ := nodup_ptrsList_cons hn
    simp only [lookupList] at hl
    by_cases hop : o.ptr = p
    · have h1 : lookup p o = some o := by rw [← hop]; exact lookup_self o
      rw [h1] at hl
      cases hl
      simp only [destroyList, hop, if_true]
      intro hm
      exact hdisj q hq ((destroyList_sublist p os).subset hm)
    · simp only [destroyList, hop, if_false, ptrsList, List.mem_append, not_or]
      cases h1 : lookup p o with
      | some x =>
        rw [h1] at hl
        cases hl
        refine ⟨not_mem_destroy p q o obj hno hop h1 hq, ?_⟩
        intro hm
        exact hdisj q ((lookup_sublist_ptrs h1).subset hq) ((destroyList_sublist p os).subset hm)
      | none =>
        rw [h1] at hl
        simp only at hl
        refine ⟨?_, not_mem_destroyList p q os obj hnos hl hq⟩
        intro hm
        exact hdisj q ((destroy_sublist p o).subset hm)
          ((lookupList_sublist p os obj hl).subset hq)
end

mutual
/-- With distinct addresses, every node outside the destroyed subtree remains in the
tree. -/
theorem mem_destroy (p q : Ptr) :
    ∀ (t : Object), (ptrs t).Nodup → t.ptr ≠ p → q ∈ ptrs t →
      (∀ obj, lookup p t = some obj → q ∉ ptrs obj) → q ∈ ptrs (destroy p t)
  | mk r i cs, hn, hp, hq, hout => by
    simp only [ptr_mk] at hp
    simp only [destroy, ptrs, List.mem_cons] at hq ⊢
    rcases hq with hq | hq
    · exact Or.inl hq
    · right
      apply mem_destroyList p q cs (nodup_children hn).2 hq
      intro obj hl
      apply hout obj
      rw [lookup_mk_of_ne hp]
      exact hl
theorem mem_destroyList (p q : Ptr) :
    ∀ (cs : List Object), (ptrsList cs).Nodup → q ∈ ptrsList cs →
      (∀ obj, lookupList p cs = some obj → q ∉ ptrs obj) → q ∈ ptrsList (destroyList p cs)
  | [], _, hq, _ => by simp [ptrsList] at hq
  | o :: os, hn, hq, hout => by
    obtain ⟨hno, hnos, hdisj⟩ := nodup_ptrsList_cons hn
    simp only [ptrsList, List.mem_append] at hq
    by_cases hop : o.ptr = p
    · have h1 : lookup p o = some o := by rw [← hop]; exact lookup_self o
      have h2 : q ∉ ptrs o := hout o (by simp [lookupList, h1])
      have h3 : p ∉ ptrsList os := hdisj p (hop ▸ ptr_mem_ptrs o)
      simp only [destroyList, hop, if_true]
      rw [destroyList_eq_self p os h3]
      rcases hq with hq | hq
      · exact absurd hq h2
      · exact hq
    · simp only [destroyList, hop, if_false, ptrsList, List.mem_append]
      rcases hq with hq | hq
      · left
        apply mem_destroy p q o hno hop hq
        intro obj hl
        exact hout obj (by simp [lookupList, hl])
      · right
        apply mem_destroyList p q os hnos hq
        intro obj hl
        cases h1 : lookup p o with
        | some x =>
          have h2 := (lookup_some p o x h1).2
          have h3 := (lookupList_some p os obj hl).2
          exact absurd h3 (hdisj p h2)
        | none => exact hout obj (by simp [lookupList, h1, hl])
end

mutual
/-- With distinct addresses, a node that survives `destroy` is found at its address, with
`destroy` applied to its own subtree. -/
theorem lookup_destroy (p q : Ptr) :
    ∀ (t : Object), (ptrs t).Nodup → q ∈ ptrs (destroy p t) →
      lookup q (destroy p t) = (lookup q t).map (destroy p)
  | mk r i cs, hn, hq => by
    simp only [destroy, lookup]
    by_cases hr : r = q
    · simp [hr, destroy]
    · simp only [hr, if_false]
      simp only [destroy, ptrs, List.mem_cons] at hq
      rcases hq with hq | hq
      · exact absurd hq.symm hr
      · exact lookupList_destroyList p q cs (nodup_children hn).2 hq
theorem lookupList_destroyList (p q : Ptr) :
    ∀ (cs : List Object), (ptrsList cs).Nodup → q ∈ ptrsList (destroyList p cs) →
      lookupList q (destroyList p cs) = (lookupList q cs).map (destroy p)
  | [], _, hq => by simp [destroyList, ptrsList] at hq
  | o :: os, hn, hq => by
    obtain ⟨hno, hnos, hdisj⟩ := nodup_ptrsList_cons hn
    by_cases hop : o.ptr = p
    · simp only [destroyList, hop, if_true] at hq ⊢
      have h1 : q ∈ ptrsList os := (destroyList_sublist p os).subset hq
      have h2 : lookup q o = none := lookup_none_of_not_mem (fun hm => hdisj q hm h1)
      rw [lookupList_destroyList p q os hnos hq]
      simp [lookupList, h2]
    · simp only [destroyList, hop, if_false, ptrsList, List.mem_append] at hq ⊢
      by_cases hqo : q ∈ ptrs (destroy p o)
      · have h1 := lookup_destroy p q o hno hqo
        obtain ⟨x, hx⟩ := lookup_of_mem q o ((destroy_sublist p o).subset hqo)
        simp [lookupList, h1, hx]
      · have h1 : lookup q (destroy p o) = none := lookup_none_of_not_mem hqo
        have h2 : q ∈ ptrsList (destroyList p os) := by
          rcases hq with hq | hq
          · exact absurd hq hqo
          · exact hq
        have h3 : q ∈ ptrsList os := (destroyList_sublist p os).subset h2
        have h4 : lookup q o = none := lookup_none_of_not_mem (fun hm => hdisj q hm h3)
        simp [lookupList, h1, h4, lookupList_destroyList p q os hnos h2]
end

/-- With distinct addresses, destroying a child leaves its siblings as they were, in their
order. -/
theorem destroyList_eq_filter (p : Ptr) :
    ∀ (cs : List Object), (ptrsList cs).Nodup → p ∈ cs.map ptr →
      destroyList p cs = cs.filter (fun c => decide (c.ptr ≠ p))
  | [], _, hp => by simp at hp
  | o :: os, hn, hp => by
    obtain ⟨hno, hnos, hdisj⟩ := nodup_ptrsList_cons hn
    by_cases hop : o.ptr = p
    · have h3 : p ∉ ptrsList os := hdisj p (hop ▸ ptr_mem_ptrs o)
      have h4 : ∀ c ∈ os, c.ptr ≠ p := by
        intro c hc e
        exact h3 (mem_ptrsList.2 ⟨c, hc, e ▸ ptr_mem_ptrs c⟩)
      simp only [destroyList, hop, if_true]
      rw [destroyList_eq_self p os h3]
      rw [List.filter_cons]
      simp only [hop, ne_eq, not_true_eq_false, decide_False, Bool.false_eq_true, if_false]
      symm
      rw [List.filter_eq_self]
      intro c hc
      simpa using h4 c hc
    · have hp2 : p ∈ os.map ptr := by
        simp only [List.map_cons, List.mem_cons] at hp
        rcases hp with hp | hp
        · exact absurd hp.symm hop
        · exact hp
      have h5 : p ∉ ptrs o := fun hm => hdisj p hm (mem_ptrsList_of_mem_map hp2)
      have h6 : p ∉ ptrsList o.children := by
        intro hm
        exact h5 (by rw [ptrs_eq]; exact List.mem_cons_of_mem _ hm)
      simp only [destroyList, hop, if_false]
      rw [destroy_eq_self p o h6, destroyList_eq_filter p os hnos hp2, List.filter_cons]
      simp [hop]

mutual
/-- With distinct addresses, an address inside a subtree denotes the same node in the
subtree and in the whole tree. -/
theorem lookup_trans (P q : Ptr) :
    ∀ (t x : Object), (ptrs t).Nodup → lookup P t = some x → q ∈ ptrs x →
      lookup q t = lookup q x
  | mk r i cs, x, hn, hl, hq => by
    by_cases hr : r = P
    · simp only [lookup, hr, if_true] at hl
      cases hl
      rw [hr]
    · rw [lookup_mk_of_ne hr] at hl
      have h2 : q ∈ ptrsList cs := (lookupList_sublist P cs x hl).subset hq
      have h3 : r ≠ q := by
        intro e
        exact (nodup_children hn).1 (by simpa [e] using h2)
      rw [lookup_mk_of_ne h3]
      exact lookupList_trans P q cs x (nodup_children hn).2 hl hq
theorem lookupList_trans (P q : Ptr) :
    ∀ (cs : List Object) (x : Object), (ptrsList cs).Nodup → lookupList P cs = some x →
      q ∈ ptrs x → lookupList q cs = lookup q x
  | [], x, _, hl, _ => by simp [lookupList] at hl
  | o :: os, x, hn, hl, hq => by
    obtain ⟨hno, hnos, hdisj⟩ := nodup_ptrsList_cons hn
    simp only [lookupList] at hl
    cases h1 : lookup P o with
    | some y =>
      rw [h1] at hl
      cases hl
      have h2 := lookup_trans P q o x hno h1 hq
      obtain ⟨z, hz⟩ := lookup_of_mem q x hq
      simp [lookupList, h2, hz]
    | none =>
      rw [h1] at hl
      simp only at hl
      have h2 : q ∈ ptrsList os := (lookupList_sublist P os x hl).subset hq
      have h3 : lookup q o = none := lookup_none_of_not_mem (fun hm => hdisj q hm h2)
      simp [lookupList, h3, lookupList_trans P q os x hnos hl hq]
end

theorem lookupList_of_mem_children :
    ∀ (cs : List Object) (c : Object), (ptrsList cs).Nodup → c ∈ cs →
      lookupList c.ptr cs = some c
  | [], c, _, hc => by simp at hc
  | o :: os, c, hn, hc => by
    obtain ⟨hno, hnos, hdisj⟩ := nodup_ptrsList_cons hn
    rcases List.mem_cons.1 hc with rfl | hc
    · simp [lookupList, lookup_self]
    · have h2 : c.ptr ∈ ptrsList os := mem_ptrsList.2 ⟨c, hc, ptr_mem_ptrs c⟩
      have h3 : lookup c.ptr o = none := lookup_none_of_not_mem (fun hm => hdisj _ hm h2)
      simp [lookupList, h3, lookupList_of_mem_children os c hnos hc]

/-- With distinct addresses, a child of a live node is the node stored at its address. -/
theorem lookup_child {P : Ptr} {t par c : Object} (hn : (ptrs t).Nodup)
    (hl : lookup P t = some par) (hc : c ∈ par.children) : lookup c.ptr t = some c := by
  have hnp := lookup_nodup hl hn
  have h1 : c.ptr ∈ ptrsList par.children := mem_ptrsList.2 ⟨c, hc, ptr_mem_ptrs c⟩
  have h2 : c.ptr ∈ ptrs par := by rw [ptrs_eq]; exact List.mem_cons_of_mem _ h1
  rw [lookup_trans P c.ptr t par hn hl h2]
  have h3 : par.ptr ≠ c.ptr := by
    intro e
    exact (nodup_children hnp).1 (e ▸ h1)
  rw [lookup_eq_lookupList_children h3]
  exact lookupList_of_mem_children _ c (nodup_children hnp).2 hc

theorem root_ne_of_mem_children {t : Object} {p : Ptr} (hn : (ptrs t).Nodup)
    (hp : p ∈ ptrsList t.children) : t.ptr ≠ p := by
  intro e
  exact (nodup_children hn).1 (e ▸ hp)

theorem mem_ptrs_of_mem_children {t : Object} {p : Ptr} (hp : p ∈ ptrsList t.children) :
    p ∈ ptrs t := by
  rw [ptrs_eq]; exact List.mem_cons_of_mem _ hp

end Object

namespace Scene

theorem parent_ne_violation (s : Scene) (idx : QModelIndex) (st : Scene) :
    parent s idx ≠ .preconditionViolation st := by
  unfold parent
  intro h
  split at h
  · cases h
  · simp only at h
    split at h
    · cases h
    · split at h
      · cases h
      · split at h
        · cases h
        · split at h
          · cases h
          · cases h

end Scene

/-- C5: `removeObject` stops on its assertion exactly when the handle is invalid, and then
the scene (tree, free-id queue, counter, trace) is as it was. On a valid handle of a live
node other than the root, in a tree with distinct addresses, it returns: no node of the
removed subtree remains in the tree, every other node remains, the former siblings keep
their order, and the id of the node is appended at the tail of the free-id queue. -/
theorem removeObject_fails_exactly_on_invalid_handles (s : Scene) (idx : QModelIndex) :
    ((∃ st, removeObject s idx = .preconditionViolation st) ↔ idx.isValid = false) ∧
    (∀ st, removeObject s idx = .preconditionViolation st → st = s) ∧
    (∀ p, (ptrs s.root).Nodup → idx.isValid = true → idx.internalPointer = some p →
      p ∈ ptrsList s.root.children →
      ∃ s1 obj par pi r, removeObject s idx = .ok s1 ∧ lookup p s.root = some obj ∧
        parentOf p s.root = some par ∧ parent s idx = .ok pi ∧ row s.root p = some r ∧
        (∀ q ∈ ptrs obj, q ∉ ptrs s1.root) ∧
        (∀ q ∈ ptrs s.root, q ∉ ptrs obj → q ∈ ptrs s1.root) ∧
        lookup par.ptr s1.root =
          some (Object.mk par.ptr par.id (par.children.filter (fun c => decide (c.ptr ≠ p)))) ∧
        s1.freeIds = s.freeIds ++ [obj.id] ∧
        s1.objectCounter = s.objectCounter ∧
        s1.events = s.events ++
          [Event.beginRemoveRows pi r r, Event.destroyed p, Event.endRemoveRows,
           Event.changed]) := by
  refine ⟨?_, ?_, ?_⟩
  · constructor
    · rintro ⟨st, h⟩
      cases hv : idx.isValid with
      | false => rfl
      | true =>
        exfalso
        unfold removeObject at h
        simp only [hv, Bool.not_true, Bool.false_eq_true, if_false] at h
        cases hp : parent s idx with
        | ok pi =>
          rw [hp] at h
          simp only at h
          split at h <;> cases h
        | preconditionViolation st2 => exact parent_ne_violation s idx st2 hp
        | undefinedBehaviour =>
          rw [hp] at h
          cases h
    · intro hv
      exact ⟨s, by simp [removeObject, hv]⟩
  · intro st h
    cases hv : idx.isValid with
    | false =>
      simp only [removeObject, hv, Bool.not_false, if_true] at h
      cases h
      rfl
    | true =>
      exfalso
      unfold removeObject at h
      simp only [hv, Bool.not_true, Bool.false_eq_true, if_false] at h
      cases hp : parent s idx with
      | ok pi =>
        rw [hp] at h
        simp only at h
        split at h <;> cases h
      | preconditionViolation st2 => exact parent_ne_violation s idx st2 hp
      | undefinedBehaviour =>
        rw [hp] at h
        cases h
  · intro p hn hv hp hlive
    obtain ⟨pi, r, obj, hpi, hrow, hl, hrem⟩ := removeObject_ok s idx p hv hp hlive
    obtain ⟨par, hpar⟩ := parentOf_of_mem p s.root hlive
    have hroot := root_ne_of_mem_children hn hlive
    have hlpar := lookup_of_parentOf p s.root par hn hpar
    have hnpar := lookup_nodup hlpar hn
    obtain ⟨c, hc, hcp⟩ := List.mem_map.1 (parentOf_some p s.root par hpar).1
    have hlc : lookup p s.root = some c := by
      rw [← hcp]; exact lookup_child hn hlpar hc
    have hobj : obj = c := by
      rw [hl] at hlc
      cases hlc
      rfl
    have hsub : ∀ q ∈ ptrs obj, q ∈ ptrsList par.children := by
      intro q hq
      exact mem_ptrsList.2 ⟨c, hc, hobj ▸ hq⟩
    have hparout : par.ptr ∉ ptrs obj := fun hm => (nodup_children hnpar).1 (hsub _ hm)
    have hparmem : par.ptr ∈ ptrs (destroy p s.root) := by
      apply mem_destroy p par.ptr s.root hn hroot (lookup_some _ _ _ hlpar).2
      intro o2 ho2
      rw [hl] at ho2
      cases ho2
      exact hparout
    refine ⟨_, obj, par, pi, r, hrem, hl, hpar, hpi, hrow, ?_, ?_, ?_, rfl, rfl, rfl⟩
    · intro q hq
      exact not_mem_destroy p q s.root obj hn hroot hl hq
    · intro q hq hout
      apply mem_destroy p q s.root hn hroot hq
      intro o2 ho2
      rw [hl] at ho2
      cases ho2
      exact hout
    · show lookup par.ptr (destroy p s.root) = _
      rw [lookup_destroy p par.ptr s.root hn hparmem, hlpar]
      simp only [Option.map_some']
      have h1 : destroy p par = Object.mk par.ptr par.id (destroyList p par.children) := by
        cases par; simp [destroy]
      rw [h1, destroyList_eq_filter p par.children (nodup_children hnpar).2
        (parentOf_some p s.root par hpar).1]

/-- C5, at concrete handles: the default handle makes `removeObject` stop with the scene
untouched; the handle of the object with id 2 of `sceneNested` removes it together with
its child. -/
theorem removeObject_fails_exactly_on_invalid_handles_witness :
    removeObject sceneNested QModelIndex.invalid = .preconditionViolation sceneNested ∧
    (∃ s1 obj par pi r, removeObject sceneNested (createIndex 1 0 11) = .ok s1 ∧
        lookup 11 sceneNested.root = some obj ∧
        parentOf 11 sceneNested.root = some par ∧
        parent sceneNested (createIndex 1 0 11) = .ok pi ∧ row sceneNested.root 11 = some r ∧
        (∀ q ∈ ptrs obj, q ∉ ptrs s1.root) ∧
        (∀ q ∈ ptrs sceneNested.root, q ∉ ptrs obj → q ∈ ptrs s1.root) ∧
        lookup par.ptr s1.root =
          some (Object.mk par.ptr par.id
            (par.children.filter (fun c => decide (c.ptr ≠ 11)))) ∧
        s1.freeIds = sceneNested.freeIds ++ [obj.id] ∧
        s1.objectCounter = sceneNested.objectCounter ∧
        s1.events = sceneNested.events ++
          [Event.beginRemoveRows pi r r, Event.destroyed 11, Event.endRemoveRows,
           Event.changed]) :=
  ⟨by
    obtain ⟨st, h⟩ :=
      (removeObject_fails_exactly_on_invalid_handles sceneNested QModelIndex.invalid).1.2
        (by decide)
    rw [h, (removeObject_fails_exactly_on_invalid_handles sceneNested QModelIndex.invalid).2.1
      st h],
   (removeObject_fails_exactly_on_invalid_handles sceneNested (createIndex 1 0 11)).2.2 11
     (by decide) (by decide) (by decide) (by decide)⟩

namespace Object

theorem child_eq_some_iff (o : Object) (row : Int) (c : Object) :
    o.child row = some c ↔ 0 ≤ row ∧ o.children[row.toNat]? = some c := by
  unfold child
  by_cases h : row < 0
  · simp only [h, if_true]
    constructor
    · intro h2; cases h2
    · intro h2; omega
  · simp only [h, if_false]
    constructor
    · intro h2; exact ⟨by omega, h2⟩
    · intro h2; exact h2.2

theorem child_isSome_iff (o : Object) (row : Int) :
    (∃ c, o.child row = some c) ↔ 0 ≤ row ∧ row < o.childCount := by
  unfold child childCount
  by_cases h : row < 0
  · simp only [h, if_true]
    constructor
    · rintro ⟨c, hc⟩; cases hc
    · intro h2; omega
  · simp only [h, if_false]
    constructor
    · rintro ⟨c, hc⟩
      have := (List.getElem?_eq_some.1 hc).1
      omega
    · intro h2
      have h3 : row.toNat < o.children.length := by omega
      exact ⟨o.children[row.toNat], List.getElem?_eq_getElem h3⟩

end Object

theorem isValid_createIndex (r : Int) (p : Ptr) (h : 0 ≤ r) :
    (createIndex r 0 p).isValid = true := by
  simp [createIndex, QModelIndex.isValid, h]

namespace Scene

theorem getObject_createIndex (s : Scene) (r : Int) (p : Ptr) (h : 0 ≤ r) :
    getObject s (createIndex r 0 p) = p := by
  have hv := isValid_createIndex r p h
  unfold getObject
  rw [hv]
  rfl

theorem getObject_of_not_valid (s : Scene) (idx : QModelIndex) (h : idx.isValid = false) :
    getObject s idx = s.root.ptr := by
  unfold getObject
  rw [h]
  rfl

end Scene

theorem row_nonneg {t : Object} {p : Ptr} {r : Int} (h : Object.row t p = some r) : 0 ≤ r := by
  unfold Object.row at h
  split at h
  · cases h; exact Int.ofNat_nonneg _
  · cases h

/-- C7: in a tree with distinct addresses, for a parent handle `p` that is the default
(invalid) handle or the column 0 handle of a live node, `index(row, 0, p)` is valid exactly
when `0 ≤ row < rowCount(p)`; a valid result denotes the child at that row of the node
denoted by `p` and its `parent` is `p`; otherwise the result is the default handle. For a
valid parent handle with a column other than 0, `index` returns the default handle. -/
theorem index_and_parent_are_inverse (s : Scene) (p : QModelIndex) (row : Int) :
    ((ptrs s.root).Nodup →
      (p = QModelIndex.invalid ∨
        ∃ P r, P ∈ ptrsList s.root.children ∧ Object.row s.root P = some r ∧
          p = createIndex r 0 P) →
      ∃ idx n par, index s row 0 p = .ok idx ∧ rowCount s p = .ok n ∧
        lookup (getObject s p) s.root = some par ∧
        (idx.isValid = true ↔ 0 ≤ row ∧ row < n) ∧
        (idx.isValid = true →
          ∃ c, par.children[row.toNat]? = some c ∧ idx = createIndex row 0 c.ptr ∧
            getObject s idx = c.ptr ∧ lookup c.ptr s.root = some c ∧
            parent s idx = .ok p) ∧
        (¬ (0 ≤ row ∧ row < n) → idx = QModelIndex.invalid)) ∧
    (p.isValid = true → p.column ≠ 0 → index s row 0 p = .ok QModelIndex.invalid) := by
  constructor
  · intro hn hp
    have hroot : s.root.ptr ∈ ptrs s.root := ptr_mem_ptrs _
    have hmem : getObject s p ∈ ptrs s.root := by
      rcases hp with rfl | ⟨P, r, hP, hr, rfl⟩
      · rw [getObject_of_not_valid s _ (by decide)]; exact hroot
      · rw [getObject_createIndex s r P (row_nonneg hr)]
        exact mem_ptrs_of_mem_children hP
    have hguard : (p.isValid && decide (p.column ≠ 0)) = false := by
      rcases hp with rfl | ⟨P, r, hP, hr, rfl⟩
      · decide
      · simp [createIndex]
    obtain ⟨par, hpar⟩ := lookup_of_mem _ _ hmem
    have hparptr := (lookup_some _ _ _ hpar).1
    have hidx : index s row 0 p =
        match par.child row with
        | some childItem => .ok (createIndex row 0 childItem.ptr)
        | none => .ok QModelIndex.invalid := by
      unfold index
      rw [hguard]
      simp only [Bool.false_eq_true, if_false, hpar]
    have hcount : rowCount s p = .ok par.childCount := by
      unfold rowCount
      rw [hpar]
    cases hc : par.child row with
    | none =>
      have hrange : ¬ (0 ≤ row ∧ row < par.childCount) := by
        intro h
        obtain ⟨c, hc2⟩ := (child_isSome_iff par row).2 h
        rw [hc] at hc2
        cases hc2
      rw [hc] at hidx
      refine ⟨QModelIndex.invalid, par.childCount, par, hidx, hcount, hpar, ?_, ?_, ?_⟩
      · constructor
        · intro h; exact absurd h (by decide)
        · intro h; exact absurd h hrange
      · intro h; exact absurd h (by decide)
      · intro _; rfl
    | some c =>
      have hrange : 0 ≤ row ∧ row < par.childCount := (child_isSome_iff par row).1 ⟨c, hc⟩
      have hget2 := (child_eq_some_iff par row c).1 hc
      have hcmem : c ∈ par.children := (List.getElem?_eq_some.1 hget2.2).2 ▸ List.getElem_mem _
      have hvalid : (createIndex row 0 c.ptr).isValid = true :=
        isValid_createIndex row c.ptr hrange.1
      have hgetc : getObject s (createIndex row 0 c.ptr) = c.ptr :=
        getObject_createIndex s row c.ptr hrange.1
      have hlc : lookup c.ptr s.root = some c := lookup_child hn hpar hcmem
      have hpc : parentOf c.ptr s.root = some par :=
        parentOf_of_lookup _ c.ptr s.root par hn hpar (List.mem_map.2 ⟨c, hcmem, rfl⟩)
      rw [hc] at hidx
      refine ⟨createIndex row 0 c.ptr, par.childCount, par, hidx, hcount, hpar, ?_, ?_, ?_⟩
      · constructor
        · intro _; exact hrange
        · intro _; exact hvalid
      · intro _
        refine ⟨c, hget2.2, rfl, hgetc, hlc, ?_⟩
        unfold parent
        rw [hvalid]
        simp only [Bool.not_true, Bool.false_eq_true, if_false, hgetc, hlc, hpc]
        rcases hp with rfl | ⟨P, r, hP, hr, rfl⟩
        · have h1 : par.ptr = s.root.ptr := by
            rw [hparptr, getObject_of_not_valid s _ (by decide)]
          rw [if_pos h1]
        · have h1 : par.ptr = P := by
            rw [hparptr, getObject_createIndex s r P (row_nonneg hr)]
          have h2 : par.ptr ≠ s.root.ptr := by
            rw [h1]
            exact fun e => root_ne_of_mem_children hn hP e.symm
          rw [if_neg h2, h1, hr]
      · intro h; exact absurd hrange h
  · intro hv hc
    simp [index, hv, hc]

/-- C7, at concrete handles of `sceneNested`: below the root and below the live node at
row 1. -/
theorem index_and_parent_are_inverse_witness :
    (∃ idx n par, index sceneNested 1 0 QModelIndex.invalid = .ok idx ∧
        rowCount sceneNested QModelIndex.invalid = .ok n ∧
        lookup (getObject sceneNested QModelIndex.invalid) sceneNested.root = some par ∧
        (idx.isValid = true ↔ 0 ≤ (1 : Int) ∧ 1 < n) ∧
        (idx.isValid = true →
          ∃ c, par.children[(1 : Int).toNat]? = some c ∧ idx = createIndex 1 0 c.ptr ∧
            getObject sceneNested idx = c.ptr ∧ lookup c.ptr sceneNested.root = some c ∧
            parent sceneNested idx = .ok QModelIndex.invalid) ∧
        (¬ (0 ≤ (1 : Int) ∧ 1 < n) → idx = QModelIndex.invalid)) ∧
    (∃ idx n par, index sceneNested 0 0 (createIndex 1 0 11) = .ok idx ∧
        rowCount sceneNested (createIndex 1 0 11) = .ok n ∧
        lookup (getObject sceneNested (createIndex 1 0 11)) sceneNested.root = some par ∧
        (idx.isValid = true ↔ 0 ≤ (0 : Int) ∧ 0 < n) ∧
        (idx.isValid = true →
          ∃ c, par.children[(0 : Int).toNat]? = some c ∧ idx = createIndex 0 0 c.ptr ∧
            getObject sceneNested idx = c.ptr ∧ lookup c.ptr sceneNested.root = some c ∧
            parent sceneNested idx = .ok (createIndex 1 0 11)) ∧
        (¬ (0 ≤ (0 : Int) ∧ 0 < n) → idx = QModelIndex.invalid)) ∧
    index sceneNested 0 0 (createIndex 1 1 11) = .ok QModelIndex.invalid :=
  ⟨(index_and_parent_are_inverse sceneNested QModelIndex.invalid 1).1 (by decide)
      (Or.inl rfl),
   (index_and_parent_are_inverse sceneNested (createIndex 1 0 11) 0).1 (by decide)
      (Or.inr ⟨11, 1, by decide, by decide, rfl⟩),
   (index_and_parent_are_inverse sceneNested (createIndex 1 1 11) 0).2 (by decide)
      (by decide)⟩

/-! ## Sequences of `addObject` and `removeObject` calls -/

namespace Object

theorem ptrsList_flat : ∀ (cs : List Object), (∀ c ∈ cs, c.children = []) →
    ptrsList cs = cs.map ptr
  | [], _ => by simp [ptrsList]
  | o :: os, h => by
    have h1 : o.children = [] := h o (List.mem_cons_self _ _)
    have h2 := ptrsList_flat os (fun c hc => h c (List.mem_cons_of_mem _ hc))
    simp [ptrsList, ptrs_eq o, h1, h2]

theorem ids_eq (o : Object) : ids o = o.id :: idsList o.children := by
  cases o; simp [ids]

theorem idsList_flat : ∀ (cs : List Object), (∀ c ∈ cs, c.children = []) →
    idsList cs = cs.map Object.id
  | [], _ => by simp [idsList]
  | o :: os, h => by
    have h1 : o.children = [] := h o (List.mem_cons_self _ _)
    have h2 := idsList_flat os (fun c hc => h c (List.mem_cons_of_mem _ hc))
    simp [idsList, ids_eq o, h1, h2]

end Object

theorem AllocatorInvariant.fresh (rootPtr : Ptr) (rootId c0 : Int) (dragged : List QModelIndex) :
    AllocatorInvariant (Scene.fresh rootPtr rootId c0 dragged) := by
  constructor <;> simp [Scene.fresh, ptrs, ptrsList]

theorem AllocatorInvariant.after_addObject {s : Scene} (h : AllocatorInvariant s) (o : Object)
    (hptr : o.ptr ∉ ptrs s.root) (hleaf : o.children = [])
    (hlo : INT_MIN ≤ s.objectCounter) (hhi : s.objectCounter < INT_MAX) :
    AllocatorInvariant (addObject s o) ∧
      s.objectCounter ≤ (addObject s o).objectCounter ∧
      (addObject s o).objectCounter ≤ s.objectCounter + 1 := by
  have hch := addObject_children s o
  have hflatp : ptrsList s.root.children = s.root.children.map ptr := ptrsList_flat _ h.flat
  have hnp : (ptrs (addObject s o).root).Nodup := by
    rw [ptrs_eq, List.nodup_cons]
    have e1 : (addObject s o).root.ptr = s.root.ptr := by simp [Scene.addObject]
    have hn := h.distinctPtrs
    rw [ptrs_eq] at hn hptr
    rw [hch, ptrsList_append, e1]
    simp only [ptrsList, List.append_nil, ptrs_eq (o.setId _), ptr_setId, children_setId, hleaf,
      List.mem_append, List.mem_singleton, not_or]
    simp only [List.mem_cons, not_or] at hptr
    refine ⟨⟨(List.nodup_cons.1 hn).1, fun e => hptr.1 e.symm⟩, ?_⟩
    rw [List.nodup_append]
    refine ⟨(List.nodup_cons.1 hn).2, List.nodup_singleton _, ?_⟩
    intro a ha hb
    rw [List.mem_singleton] at hb
    exact hptr.2 (hb ▸ ha)
  have hflat : ∀ c ∈ (addObject s o).root.children, c.children = [] := by
    intro c hc
    rw [hch, List.mem_append, List.mem_singleton] at hc
    rcases hc with hc | hc
    · exact h.flat c hc
    · rw [hc, children_setId]; exact hleaf
  cases hq : s.freeIds with
  | nil =>
    have hid : allocatedId s = s.objectCounter := by simp [allocatedId, hq]
    have hcnt : (addObject s o).objectCounter = s.objectCounter + 1 := by
      simp only [Scene.addObject, hq]
      apply wrapInt32_of_inRange
      · omega
      · unfold INT_MAX at *; omega
    have hfree : (addObject s o).freeIds = [] := by simp [Scene.addObject, hq]
    refine ⟨⟨hflat, hnp, ?_, ?_, ?_, ?_⟩, by omega, by omega⟩
    · rw [hch, List.map_append, List.nodup_append]
      refine ⟨h.distinctIds, by simp, ?_⟩
      intro a ha hb
      simp only [List.map_cons, List.map_nil, List.mem_singleton, id_setId, hid] at hb
      have := h.belowCounter a (Or.inl ha)
      omega
    · intro i _
      rw [hfree]; simp
    · rw [hfree]; simp
    · intro i hi
      rw [hcnt]
      rw [hfree, hch] at hi
      simp only [List.map_append, List.map_cons, List.map_nil, List.mem_append,
        List.mem_singleton, id_setId, hid, List.not_mem_nil, or_false] at hi
      rcases hi with hi | hi
      · have := h.belowCounter i (Or.inl hi); omega
      · omega
  | cons k rest =>
    have hid : allocatedId s = k := by simp [allocatedId, hq]
    have hcnt : (addObject s o).objectCounter = s.objectCounter := by
      simp [Scene.addObject, hq]
    have hfree : (addObject s o).freeIds = rest := by simp [Scene.addObject, hq]
    have hnq := h.distinctFree
    rw [hq] at hnq
    refine ⟨⟨hflat, hnp, ?_, ?_, ?_, ?_⟩, by omega, by omega⟩
    · rw [hch, List.map_append, List.nodup_append]
      refine ⟨h.distinctIds, by simp, ?_⟩
      intro a ha hb
      simp only [List.map_cons, List.map_nil, List.mem_singleton, id_setId, hid] at hb
      exact h.liveNotFree a ha (by rw [hq, hb]; exact List.mem_cons_self _ _)
    · intro i hi
      rw [hfree]
      rw [hch] at hi
      simp only [List.map_append, List.map_cons, List.map_nil, List.mem_append,
        List.mem_singleton, id_setId, hid] at hi
      rcases hi with hi | hi
      · intro hm
        exact h.liveNotFree i hi (by rw [hq]; exact List.mem_cons_of_mem _ hm)
      · rw [hi]; exact (List.nodup_cons.1 hnq).1
    · rw [hfree]; exact (List.nodup_cons.1 hnq).2
    · intro i hi
      rw [hcnt]
      rw [hfree, hch] at hi
      simp only [List.map_append, List.map_cons, List.map_nil, List.mem_append,
        List.mem_singleton, id_setId, hid] at hi
      rcases hi with (hi | hi) | hi
      · exact h.belowCounter i (Or.inl hi)
      · exact h.belowCounter i (Or.inr (by rw [hq, hi]; exact List.mem_cons_self _ _))
      · exact h.belowCounter i (Or.inr (by rw [hq]; exact List.mem_cons_of_mem _ hi))

theorem AllocatorInvariant.after_removeObject {s : Scene} (h : AllocatorInvariant s)
    (idx : QModelIndex) (p : Ptr) (hv : idx.isValid = true) (hp : idx.internalPointer = some p)
    (hlive : p ∈ ptrsList s.root.children) :
    ∃ s1, removeObject s idx = .ok s1 ∧ AllocatorInvariant s1 ∧
      s1.objectCounter = s.objectCounter := by
  obtain ⟨pi, r, obj, _, _, hl, hrem⟩ := removeObject_ok s idx p hv hp hlive
  refine ⟨_, hrem, ?_, rfl⟩
  have hn := h.distinctPtrs
  have hflatp : ptrsList s.root.children = s.root.children.map ptr := ptrsList_flat _ h.flat
  have hpm : p ∈ s.root.children.map ptr := hflatp ▸ hlive
  obtain ⟨c, hc, hcp⟩ := List.mem_map.1 hpm
  have hobj : obj = c := by
    have := lookup_child hn (lookup_self s.root) hc
    rw [hcp, hl] at this
    cases this
    rfl
  have hchildren : (destroy p s.root).children =
      s.root.children.filter (fun c => decide (c.ptr ≠ p)) := by
    rw [children_destroy]
    exact destroyList_eq_filter p _ (nodup_children hn).2 hpm
  have hsub : ((destroy p s.root).children.map Object.id).Sublist
      (s.root.children.map Object.id) := by
    rw [hchildren]
    exact List.Sublist.map _ (List.filter_sublist _)
  have hnotin : obj.id ∉ (destroy p s.root).children.map Object.id := by
    rw [hchildren]
    intro hm
    obtain ⟨d, hd, hdid⟩ := List.mem_map.1 hm
    have hd2 := List.mem_filter.1 hd
    have hdc : d = c := by
      apply List.inj_on_of_nodup_map h.distinctIds hd2.1 hc
      rw [hdid, hobj]
    have := hd2.2
    rw [hdc, hcp] at this
    simp at this
  constructor
  · intro d hd
    show d.children = []
    have hd' : d ∈ (destroy p s.root).children := hd
    rw [hchildren] at hd'
    exact h.flat d (List.mem_filter.1 hd').1
  · exact destroy_nodup p hn
  · exact hsub.nodup h.distinctIds
  · intro i hi
    show i ∉ s.freeIds ++ [obj.id]
    have hi' : i ∈ (destroy p s.root).children.map Object.id := hi
    rw [List.mem_append, List.mem_singleton, not_or]
    refine ⟨h.liveNotFree i (hsub.subset hi'), ?_⟩
    intro e
    exact hnotin (e ▸ hi')
  · show (s.freeIds ++ [obj.id]).Nodup
    rw [List.nodup_append]
    refine ⟨h.distinctFree, List.nodup_singleton _, ?_⟩
    intro a ha hb
    rw [List.mem_singleton] at hb
    apply h.liveNotFree obj.id _ (hb ▸ ha)
    rw [hobj]
    exact List.mem_map.2 ⟨c, hc, rfl⟩
  · intro i hi
    show i < s.objectCounter
    have hi' : i ∈ (destroy p s.root).children.map Object.id ∨ i ∈ s.freeIds ++ [obj.id] := hi
    rcases hi' with hi' | hi'
    · exact h.belowCounter i (Or.inl (hsub.subset hi'))
    · rw [List.mem_append, List.mem_singleton] at hi'
      rcases hi' with hi' | hi'
      · exact h.belowCounter i (Or.inr hi')
      · apply h.belowCounter i (Or.inl _)
        rw [hi', hobj]
        exact List.mem_map.2 ⟨c, hc, rfl⟩

/-- An admissible sequence of calls runs to its end and keeps the allocator invariant, as
long as the counter cannot leave the range of `int`. -/
theorem run_keeps_invariant : ∀ (ops : List Op) (s : Scene), AllocatorInvariant s →
    INT_MIN ≤ s.objectCounter → s.objectCounter + (ops.length : Int) ≤ INT_MAX →
    admissibleRun s ops = true →
    ∃ s1, run s ops = .ok s1 ∧ AllocatorInvariant s1
  | [], s, h, _, _, _ => ⟨s, rfl, h⟩
  | op :: ops, s, h, hlo, hhi, hadm => by
    simp only [admissibleRun, Bool.and_eq_true] at hadm
    simp only [List.length_cons, Nat.cast_add, Nat.cast_one] at hhi
    cases op with
    | add o =>
      simp only [Op.admissible, Bool.and_eq_true, decide_eq_true_eq, List.isEmpty_iff] at hadm
      have hstep := h.after_addObject o hadm.1.1 hadm.1.2 hlo
        (by have := Int.ofNat_nonneg ops.length; omega)
      have hrest : admissibleRun (addObject s o) ops = true := by
        simpa [Op.apply] using hadm.2
      obtain ⟨s1, hs1, hinv⟩ := run_keeps_invariant ops (addObject s o) hstep.1
        (by omega) (by omega) hrest
      exact ⟨s1, by simpa [run, Op.apply] using hs1, hinv⟩
    | remove idx =>
      simp only [Op.admissible, Bool.and_eq_true] at hadm
      cases hip : idx.internalPointer with
      | none =>
        rw [hip] at hadm
        simp at hadm
      | some p =>
        rw [hip] at hadm
        simp only [decide_eq_true_eq] at hadm
        obtain ⟨s1, hrem, hinv, hcnt⟩ := h.after_removeObject idx p hadm.1.1 hip hadm.1.2
        have hrest : admissibleRun s1 ops = true := by
          simpa [Op.apply, hrem] using hadm.2
        obtain ⟨s2, hs2, hinv2⟩ := run_keeps_invariant ops s1 hinv
          (by omega) (by omega) hrest
        exact ⟨s2, by simpa [run, Op.apply, hrem] using hs2, hinv2⟩

/-- C2: starting from a fresh scene, every sequence of `addObject` calls (each with a newly
constructed object) and `removeObject` calls (each with a valid handle of a live object)
that keeps the counter in the range of `int` runs to its end, and then the ids of the live
objects are pairwise distinct, no live id is in the free-id queue, the free-id queue has no
duplicates, and every live or queued id is smaller than the counter. -/
theorem id_uniqueness_invariant (rootPtr : Ptr) (rootId counter0 : Int)
    (dragged : List QModelIndex) (ops : List Op)
    (hlo : INT_MIN ≤ counter0) (hhi : counter0 + (ops.length : Int) ≤ INT_MAX)
    (hadm : admissibleRun (Scene.fresh rootPtr rootId counter0 dragged) ops = true) :
    ∃ s, run (Scene.fresh rootPtr rootId counter0 dragged) ops = .ok s ∧
      (idsList s.root.children).Nodup ∧
      (∀ i ∈ idsList s.root.children, i ∉ s.freeIds) ∧
      s.freeIds.Nodup ∧
      (∀ i, i ∈ idsList s.root.children ∨ i ∈ s.freeIds → i < s.objectCounter) := by
  obtain ⟨s, hs, hinv⟩ := run_keeps_invariant ops _
    (AllocatorInvariant.fresh rootPtr rootId counter0 dragged) hlo hhi hadm
  have hflat := idsList_flat _ hinv.flat
  refine ⟨s, hs, ?_, ?_, hinv.distinctFree, ?_⟩
  · rw [hflat]; exact hinv.distinctIds
  · rw [hflat]; exact hinv.liveNotFree
  · rw [hflat]; exact hinv.belowCounter

/-- C2, at the sequence `exampleOps` on a fresh scene whose counter starts at 1. -/
theorem id_uniqueness_invariant_witness :
    ∃ s, run (Scene.fresh 0 0 1 []) exampleOps = .ok s ∧
      (idsList s.root.children).Nodup ∧
      (∀ i ∈ idsList s.root.children, i ∉ s.freeIds) ∧
      s.freeIds.Nodup ∧
      (∀ i, i ∈ idsList s.root.children ∨ i ∈ s.freeIds → i < s.objectCounter) :=
  id_uniqueness_invariant 0 0 1 [] exampleOps (by decide) (by decide) (by decide)

/-! ## Insertion of a child -/

namespace Object

@[simp] theorem ptr_addChild (P : Ptr) (pos : Int) (o t : Object) :
    (addChild P pos o t).ptr = t.ptr := by
  cases t; simp only [addChild]; split <;> rfl

@[simp] theorem id_addChild (P : Ptr) (pos : Int) (o t : Object) :
    (addChild P pos o t).id = t.id := by
  cases t; simp only [addChild]; split <;> rfl

theorem ptrsList_insertAt_perm (pos : Int) (o : Object) (cs : List Object) :
    (ptrsList (insertAt pos o cs)).Perm (ptrs o ++ ptrsList cs) := by
  unfold insertAt
  rw [ptrsList_append]
  simp only [ptrsList]
  have h : ptrsList cs = ptrsList (cs.take pos.toNat) ++ ptrsList (cs.drop pos.toNat) := by
    rw [← ptrsList_append, List.take_append_drop]
  rw [h]
  exact (List.perm_append_comm_assoc _ _ _)

mutual
theorem addChild_eq_self (P : Ptr) (pos : Int) (o : Object) :
    ∀ (t : Object), P ∉ ptrs t → addChild P pos o t = t
  | mk r i cs, h => by
    simp only [ptrs, List.mem_cons, not_or] at h
    have hr : r ≠ P := fun e => h.1 e.symm
    simp only [addChild, hr, if_false]
    rw [addChildList_eq_self P pos o cs h.2]
theorem addChildList_eq_self (P : Ptr) (pos : Int) (o : Object) :
    ∀ (cs : List Object), P ∉ ptrsList cs → addChildList P pos o cs = cs
  | [], _ => by simp [addChildList]
  | c :: cs, h => by
    simp only [ptrsList, List.mem_append, not_or] at h
    simp only [addChildList]
    rw [addChild_eq_self P pos o c h.1, addChildList_eq_self P pos o cs h.2]
end

mutual
/-- With distinct addresses, `addChild` adds the nodes of `o` to the tree when the parent
is live, and changes nothing otherwise. -/
theorem ptrs_addChild_perm (P : Ptr) (pos : Int) (o : Object) :
    ∀ (t : Object), (ptrs t).Nodup →
      (ptrs (addChild P pos o t)).Perm ((if P ∈ ptrs t then ptrs o else []) ++ ptrs t)
  | mk r i cs, hn => by
    by_cases hr : r = P
    · have hm : P ∈ ptrs (mk r i cs) := by simp [ptrs, hr]
      rw [if_pos hm]
      subst hr
      simp only [addChild, if_true, ptrs]
      have h1 := ptrsList_insertAt_perm pos o cs
      have h2 : (r :: ptrsList (insertAt pos o cs)).Perm (r :: (ptrs o ++ ptrsList cs)) :=
        List.Perm.cons _ h1
      exact h2.trans (List.perm_middle.symm)
    · have hiff : (P ∈ ptrs (mk r i cs)) ↔ (P ∈ ptrsList cs) := by
        simp only [ptrs, List.mem_cons]
        constructor
        · rintro (h | h)
          · exact absurd h.symm hr
          · exact h
        · exact Or.inr
      have ih := ptrsList_addChildList_perm P pos o cs (nodup_children hn).2
      simp only [children_mk] at ih
      have h2 := List.Perm.cons r ih
      by_cases hm : P ∈ ptrsList cs
      · rw [if_pos (hiff.2 hm)]
        rw [if_pos hm] at h2
        simp only [addChild, hr, if_false, ptrs]
        exact h2.trans List.perm_middle.symm
      · rw [if_neg (fun h => hm (hiff.1 h))]
        rw [if_neg hm] at h2
        simp only [addChild, hr, if_false, ptrs]
        simpa using h2
theorem ptrsList_addChildList_perm (P : Ptr) (pos : Int) (o : Object) :
    ∀ (cs : List Object), (ptrsList cs).Nodup →
      (ptrsList (addChildList P pos o cs)).Perm
        ((if P ∈ ptrsList cs then ptrs o else []) ++ ptrsList cs)
  | [], _ => by simp [addChildList, ptrsList]
  | c :: cs, hn => by
    obtain ⟨hnc, hncs, hdisj⟩ := nodup_ptrsList_cons hn
    simp only [addChildList, ptrsList]
    by_cases hc : P ∈ ptrs c
    · have hcs : P ∉ ptrsList cs := hdisj P hc
      rw [addChildList_eq_self P pos o cs hcs]
      have ih := ptrs_addChild_perm P pos o c hnc
      rw [if_pos hc] at ih
      have hm : P ∈ ptrs c ++ ptrsList cs := List.mem_append_left _ hc
      rw [if_pos hm]
      have := List.Perm.append_right (ptrsList cs) ih
      simpa [List.append_assoc] using this
    · rw [addChild_eq_self P pos o c hc]
      have ih := ptrsList_addChildList_perm P pos o cs hncs
      by_cases hcs : P ∈ ptrsList cs
      · rw [if_pos hcs] at ih
        have hm : P ∈ ptrs c ++ ptrsList cs := List.mem_append_right _ hcs
        rw [if_pos hm]
        have h1 := List.Perm.append_left (ptrs c) ih
        refine h1.trans ?_
        rw [← List.append_assoc, ← List.append_assoc]
        exact List.Perm.append_right _ List.perm_append_comm
      · rw [if_neg hcs] at ih
        have hm : P ∉ ptrs c ++ ptrsList cs := by
          simp only [List.mem_append, not_or]; exact ⟨hc, hcs⟩
        rw [if_neg hm]
        simpa using List.Perm.append_left (ptrs c) ih
end

theorem addChild_nodup (P : Ptr) (pos : Int) (o t : Object)
    (hn : (ptrs o ++ ptrs t).Nodup) : (ptrs (addChild P pos o t)).Nodup := by
  have hnt : (ptrs t).Nodup := (List.nodup_append.1 hn).2.1
  rw [(ptrs_addChild_perm P pos o t hnt).nodup_iff]
  split
  · exact hn
  · simpa using hnt

theorem mem_ptrs_addChild (P : Ptr) (pos : Int) (o t : Object) (hn : (ptrs t).Nodup)
    (q : Ptr) : q ∈ ptrs (addChild P pos o t) ↔ (P ∈ ptrs t ∧ q ∈ ptrs o) ∨ q ∈ ptrs t := by
  rw [(ptrs_addChild_perm P pos o t hn).mem_iff, List.mem_append]
  split
  · rename_i h; simp [h]
  · rename_i h; simp [h]

theorem lookupList_cons (q : Ptr) (a : Object) (rest : List Object) :
    lookupList q (a :: rest) =
      (match lookup q a with
       | some x => some x
       | none => lookupList q rest) := by
  cases h : lookup q a <;> simp [lookupList, h]

theorem lookupList_skip (q : Ptr) (o : Object) (h : lookup q o = none)
    (as bs : List Object) : lookupList q (as ++ o :: bs) = lookupList q (as ++ bs) := by
  induction as with
  | nil => simp [lookupList, h]
  | cons a as ih =>
    rw [List.cons_append, List.cons_append, lookupList_cons, lookupList_cons, ih]

theorem lookupList_insertAt (q : Ptr) (pos : Int) (o : Object) (cs : List Object)
    (h : lookup q o = none) : lookupList q (insertAt pos o cs) = lookupList q cs := by
  unfold insertAt
  rw [lookupList_skip q o h, List.take_append_drop]

mutual
/-- With distinct addresses, a node of the tree is found at its address after `addChild`
of a freshly allocated object, with `addChild` applied to its own subtree. -/
theorem lookup_addChild (P q : Ptr) (pos : Int) (o : Object) (hq : q ∉ ptrs o) :
    ∀ (t : Object), (ptrs t).Nodup →
      lookup q (addChild P pos o t) = (lookup q t).map (addChild P pos o)
  | mk r i cs, hn => by
    by_cases hrq : r = q
    · have h1 : lookup q (mk r i cs) = some (mk r i cs) := by simp [lookup, hrq]
      have h2 : (addChild P pos o (mk r i cs)).ptr = q := by rw [ptr_addChild]; exact hrq
      rw [h1, Option.map_some', ← h2]
      exact lookup_self _
    · by_cases hr : r = P
      · simp only [addChild, hr, if_true]
        have hPq : P ≠ q := hr ▸ hrq
        rw [lookup_mk_of_ne hPq, lookup_mk_of_ne hPq,
          lookupList_insertAt q pos o cs (lookup_none_of_not_mem hq)]
        cases hl : lookupList q cs with
        | none => rfl
        | some x =>
          have hsub := (lookupList_sublist q cs x hl).subset
          have hPx : P ∉ ptrs x := by
            intro hm
            exact (nodup_children hn).1 (by simpa [hr] using hsub hm)
          simp [addChild_eq_self P pos o x hPx]
      · simp only [addChild, hr, if_false]
        rw [lookup_mk_of_ne hrq, lookup_mk_of_ne hrq]
        exact lookupList_addChildList P q pos o hq cs (nodup_children hn).2
theorem lookupList_addChildList (P q : Ptr) (pos : Int) (o : Object) (hq : q ∉ ptrs o) :
    ∀ (cs : List Object), (ptrsList cs).Nodup →
      lookupList q (addChildList P pos o cs) = (lookupList q cs).map (addChild P pos o)
  | [], _ => by simp [addChildList, lookupList]
  | c :: cs, hn => by
    obtain ⟨hnc, hncs, _⟩ := nodup_ptrsList_cons hn
    simp only [addChildList, lookupList]
    rw [lookup_addChild P q pos o hq c hnc, lookupList_addChildList P q pos o hq cs hncs]
    cases lookup q c <;> simp
end

end Object

/-! ## Drag and drop -/

namespace Scene

theorem getObject_of_root_ptr (s s1 : Scene) (idx : QModelIndex) (h : s1.root.ptr = s.root.ptr) :
    getObject s1 idx = getObject s idx := by
  unfold getObject
  rw [h]

theorem insertRow_ok (s : Scene) (row : Int) (parent : QModelIndex) (o : Object)
    (hp : getObject s parent ∈ ptrs s.root) :
    insertRow s row parent o = .ok { s with
      root := addChild (getObject s parent) row o s.root,
      events := s.events ++ [Event.attached o.ptr (getObject s parent)] ++
        [Event.beginInsertRows parent row (wrapInt32 (wrapInt32 (row + ((1 : Nat) : Int)) - 1)),
         Event.endInsertRows] } := by
  obtain ⟨x, hx⟩ := lookup_of_mem _ _ hp
  simp [insertRow, insertRows, hx, insertLoop]

/-- The insertion loop of `dropMimeData` returns when the drop target is live: the nodes
of the tree stay where they are, with their ids, and the trace grows by insertion events
only. -/
theorem dropInsertLoop_ok (row : Int) (parent : QModelIndex) :
    ∀ (objs : List Object) (s : Scene), (ptrs s.root ++ ptrsList objs).Nodup →
      getObject s parent ∈ ptrs s.root →
      ∃ s1 ins, dropInsertLoop row parent s objs = .ok s1 ∧
        (ptrs s1.root).Nodup ∧ s1.root.ptr = s.root.ptr ∧
        (∀ q ∈ ptrs s.root, ∃ x x1, lookup q s.root = some x ∧ lookup q s1.root = some x1 ∧
          x1.id = x.id ∧ ∀ a ∈ ptrs x1, a ∈ ptrs x ∨ a ∈ ptrsList objs) ∧
        s1.freeIds = s.freeIds ∧ s1.objectCounter = s.objectCounter ∧
        s1.draggedObjects = s.draggedObjects ∧
        s1.events = s.events ++ ins ∧ (∀ e ∈ ins, e.isInsertion = true) ∧
        ins.filterMap Event.attachedObject = objs.map ptr
  | [], s, hn, _ => by
    refine ⟨s, [], rfl, ?_, rfl, ?_, rfl, rfl, rfl, by simp, by simp, by simp⟩
    · simpa [ptrsList] using hn
    · intro q hq
      obtain ⟨x, hx⟩ := lookup_of_mem q s.root hq
      exact ⟨x, x, hx, hx, rfl, fun a ha => Or.inl ha⟩
  | o :: os, s, hn, hp => by
    have hstep := insertRow_ok s row parent o hp
    simp only [ptrsList] at hn
    have hns : (ptrs s.root).Nodup := (List.nodup_append.1 hn).1
    have hno : (ptrs o ++ ptrs s.root).Nodup := by
      rw [← List.append_assoc] at hn
      exact (List.nodup_append.1 hn).1 |> (List.perm_append_comm.nodup_iff).1
    set s' : Scene := { s with
      root := addChild (getObject s parent) row o s.root,
      events := s.events ++ [Event.attached o.ptr (getObject s parent)] ++
        [Event.beginInsertRows parent row (wrapInt32 (wrapInt32 (row + ((1 : Nat) : Int)) - 1)),
         Event.endInsertRows] } with hs'
    have hperm := ptrs_addChild_perm (getObject s parent) row o s.root hns
    rw [if_pos hp] at hperm
    have hroot' : s'.root.ptr = s.root.ptr := by simp [hs']
    have hn' : (ptrs s'.root ++ ptrsList os).Nodup := by
      have h1 : (ptrs s'.root ++ ptrsList os).Perm
          ((ptrs o ++ ptrs s.root) ++ ptrsList os) := List.Perm.append_right _ hperm
      rw [h1.nodup_iff]
      have h2 : ((ptrs o ++ ptrs s.root) ++ ptrsList os).Perm
          (ptrs s.root ++ (ptrs o ++ ptrsList os)) := by
        rw [← List.append_assoc]
        exact List.Perm.append_right _ List.perm_append_comm
      rw [h2.nodup_iff]
      exact hn
    have hp' : getObject s' parent ∈ ptrs s'.root := by
      rw [getObject_of_root_ptr s s' parent hroot']
      exact hperm.mem_iff.2 (List.mem_append_right _ hp)
    obtain ⟨s1, ins, hrun, hn1, hroot1, hlook, hfree, hcnt, hdrag, hev, hins, hatt⟩ :=
      dropInsertLoop_ok row parent os s' hn' hp'
    refine ⟨s1, [Event.attached o.ptr (getObject s parent),
        Event.beginInsertRows parent row (wrapInt32 (wrapInt32 (row + ((1 : Nat) : Int)) - 1)),
        Event.endInsertRows] ++ ins, ?_, hn1, hroot1.trans hroot', ?_, hfree, hcnt, hdrag, ?_, ?_,
        ?_⟩
    · simp only [dropInsertLoop, hstep]
      exact hrun
    · intro q hq
      obtain ⟨x, hx⟩ := lookup_of_mem q s.root hq
      have hqo : q ∉ ptrs o := by
        intro hm
        exact (List.nodup_append.1 hno).2.2 hm hq
      have hl' : lookup q s'.root = some (addChild (getObject s parent) row o x) := by
        show lookup q (addChild (getObject s parent) row o s.root) = _
        rw [lookup_addChild _ q row o hqo s.root hns, hx]
        rfl
      have hq' : q ∈ ptrs s'.root := (lookup_some _ _ _ hl').2
      obtain ⟨x', x1, hx', hx1, hid, hsub⟩ := hlook q hq'
      rw [hl'] at hx'
      cases hx'
      refine ⟨x, x1, hx, hx1, by rw [hid, id_addChild], ?_⟩
      intro a ha
      rcases hsub a ha with h1 | h1
      · rw [mem_ptrs_addChild _ row o x (lookup_nodup hx hns)] at h1
        rcases h1 with h1 | h1
        · right
          simp only [ptrsList, List.mem_append]
          exact Or.inl h1.2
        · exact Or.inl h1
      · right
        simp only [ptrsList, List.mem_append]
        exact Or.inr h1
    · rw [hev]
      simp [hs', List.append_assoc]
    · intro e he
      simp only [List.mem_append, List.mem_cons, List.mem_singleton, List.not_mem_nil,
        or_false] at he
      rcases he with (rfl | rfl | rfl) | he
      · rfl
      · rfl
      · rfl
      · exact hins e he
    · simp [List.filterMap_cons, Event.attachedObject, hatt]

end Scene

theorem subtreePtrs_of_lookup {t x : Object} {p : Ptr} (h : lookup p t = some x) :
    subtreePtrs t p = ptrs x := by
  simp [subtreePtrs, h]

theorem idOf_of_lookup {t x : Object} {p : Ptr} (h : lookup p t = some x) :
    idOf t p = x.id := by
  simp [idOf, h]

namespace Scene

/-- The removal loop of `dropMimeData` returns when the handles are valid handles of live
nodes, none inside the subtree of another: every such node leaves the tree, the ids are
appended to the free-id queue in the order of the handles, and the trace grows by removal
and content-changed events only. -/
theorem dropRemoveLoop_ok :
    ∀ (hs : List QModelIndex) (s : Scene), (ptrs s.root).Nodup →
      (∀ h ∈ hs, h.isValid = true ∧ denotesLiveNode s.root h = true) →
      (hs.filterMap (fun i => i.internalPointer)).Pairwise (nonNested s.root) →
      ∃ s2 rem, dropRemoveLoop s hs = .ok s2 ∧
        (∀ q ∈ ptrs s2.root, q ∈ ptrs s.root) ∧
        (∀ p ∈ hs.filterMap (fun i => i.internalPointer), p ∉ ptrs s2.root) ∧
        s2.freeIds = s.freeIds ++ (hs.filterMap (fun i => i.internalPointer)).map (idOf s.root) ∧
        s2.objectCounter = s.objectCounter ∧
        s2.draggedObjects = s.draggedObjects ∧
        s2.events = s.events ++ rem ∧ (∀ e ∈ rem, e.isInsertion = false) ∧
        rem.filterMap Event.destroyedObject = hs.filterMap (fun i => i.internalPointer)
  | [], s, _, _, _ => by
    exact ⟨s, [], rfl, fun q hq => hq, by simp, by simp, rfl, rfl, by simp, by simp, by simp⟩
  | h :: hs, s, hn, hlive, hpair => by
    obtain ⟨hv, hl⟩ := hlive h (List.mem_cons_self _ _)
    unfold denotesLiveNode at hl
    cases hip : h.internalPointer with
    | none => rw [hip] at hl; cases hl
    | some p =>
      rw [hip] at hl
      simp only [decide_eq_true_eq] at hl
      have hfm : (h :: hs).filterMap (fun i => i.internalPointer) =
          p :: hs.filterMap (fun i => i.internalPointer) := by
        simp [List.filterMap_cons, hip]
      rw [hfm] at hpair ⊢
      obtain ⟨hhead, htail⟩ := List.pairwise_cons.1 hpair
      obtain ⟨pi, r, obj, _, _, hobj, hrem⟩ := removeObject_ok s h p hv hip hl
      have hroot : s.root.ptr ≠ p := root_ne_of_mem_children hn hl
      set s1 : Scene := { s with
        freeIds := s.freeIds ++ [obj.id],
        root := destroy p s.root,
        events := s.events ++
          [Event.beginRemoveRows pi r r, Event.destroyed p, Event.endRemoveRows,
           Event.changed] } with hs1
      have hn1 : (ptrs s1.root).Nodup := destroy_nodup p hn
      -- the remaining handles still denote live nodes
      have hsurvive : ∀ q ∈ hs.filterMap (fun i => i.internalPointer),
          q ∈ ptrsList s.root.children → q ∈ ptrs (destroy p s.root) := by
        intro q hq hql
        apply mem_destroy p q s.root hn hroot (mem_ptrs_of_mem_children hql)
        intro o2 ho2
        have := (hhead q hq).1
        rw [subtreePtrs_of_lookup ho2] at this
        exact this
      have hlive_ptr : ∀ q ∈ hs.filterMap (fun i => i.internalPointer),
          q ∈ ptrsList s.root.children := by
        intro q hq
        obtain ⟨h2, hh2, hq2⟩ := List.mem_filterMap.1 hq
        have := (hlive h2 (List.mem_cons_of_mem _ hh2)).2
        unfold denotesLiveNode at this
        rw [hq2] at this
        simpa using this
      have hmem1 : ∀ q ∈ hs.filterMap (fun i => i.internalPointer),
          q ∈ ptrsList s1.root.children := by
        intro q hq
        have h1 := hsurvive q hq (hlive_ptr q hq)
        have h2 : q ∈ ptrs s1.root := h1
        rw [ptrs_eq] at h2
        rcases List.mem_cons.1 h2 with h3 | h3
        · exfalso
          have : s1.root.ptr = s.root.ptr := by simp [hs1]
          rw [this] at h3
          exact root_ne_of_mem_children hn (hlive_ptr q hq) h3.symm
        · exact h3
      have hlook1 : ∀ q ∈ hs.filterMap (fun i => i.internalPointer),
          lookup q s1.root = (lookup q s.root).map (destroy p) := by
        intro q hq
        exact lookup_destroy p q s.root hn (hsurvive q hq (hlive_ptr q hq))
      have hlive1 : ∀ h2 ∈ hs, h2.isValid = true ∧ denotesLiveNode s1.root h2 = true := by
        intro h2 hh2
        refine ⟨(hlive h2 (List.mem_cons_of_mem _ hh2)).1, ?_⟩
        have := (hlive h2 (List.mem_cons_of_mem _ hh2)).2
        unfold denotesLiveNode at this ⊢
        cases hip2 : h2.internalPointer with
        | none => rw [hip2] at this; cases this
        | some q =>
          simp only [decide_eq_true_eq]
          exact hmem1 q (List.mem_filterMap.2 ⟨h2, hh2, hip2⟩)
      have hsubtree : ∀ q ∈ hs.filterMap (fun i => i.internalPointer),
          ∀ a ∈ subtreePtrs s1.root q, a ∈ subtreePtrs s.root q := by
        intro q hq a ha
        obtain ⟨x, hx⟩ := lookup_of_mem q s.root (mem_ptrs_of_mem_children (hlive_ptr q hq))
        have h1 := hlook1 q hq
        rw [hx] at h1
        simp only [Option.map_some'] at h1
        rw [subtreePtrs_of_lookup h1] at ha
        rw [subtreePtrs_of_lookup hx]
        exact (destroy_sublist p x).subset ha
      have hpair1 : (hs.filterMap (fun i => i.internalPointer)).Pairwise (nonNested s1.root) := by
        refine List.Pairwise.imp_of_mem ?_ htail
        intro a b ha hb hab
        exact ⟨fun hm => hab.1 (hsubtree a ha b hm), fun hm => hab.2 (hsubtree b hb a hm)⟩
      have hids : (hs.filterMap (fun i => i.internalPointer)).map (idOf s1.root) =
          (hs.filterMap (fun i => i.internalPointer)).map (idOf s.root) := by
        apply List.map_congr_left
        intro q hq
        obtain ⟨x, hx⟩ := lookup_of_mem q s.root (mem_ptrs_of_mem_children (hlive_ptr q hq))
        have h1 := hlook1 q hq
        rw [hx] at h1
        simp only [Option.map_some'] at h1
        rw [idOf_of_lookup h1, idOf_of_lookup hx, id_destroy]
      obtain ⟨s2, rem, hrun, hsub, hgone, hfree, hcnt, hdrag, hev, hrem2, hdes⟩ :=
        dropRemoveLoop_ok hs s1 hn1 hlive1 hpair1
      refine ⟨s2, [Event.beginRemoveRows pi r r, Event.destroyed p, Event.endRemoveRows,
        Event.changed] ++ rem, ?_, ?_, ?_, ?_, hcnt, hdrag, ?_, ?_, ?_⟩
      · simp only [dropRemoveLoop, hrem]
        exact hrun
      · intro q hq
        exact (destroy_sublist p s.root).subset (hsub q hq)
      · intro q hq
        rcases List.mem_cons.1 hq with rfl | hq
        · intro hm
          have hself : q ∈ ptrs obj := by
            rw [← (lookup_some _ _ _ hobj).1]; exact ptr_mem_ptrs obj
          exact not_mem_destroy q q s.root obj hn hroot hobj hself (hsub q hm)
        · exact hgone q hq
      · rw [hfree, hids]
        simp [hs1, idOf_of_lookup hobj, List.append_assoc]
      · rw [hev]
        simp [hs1, List.append_assoc]
      · intro e he
        simp only [List.mem_append, List.mem_cons, List.mem_singleton, List.not_mem_nil,
          or_false] at he
        rcases he with (rfl | rfl | rfl | rfl) | he
        · rfl
        · rfl
        · rfl
        · rfl
        · exact hrem2 e he
      · simp [List.filterMap_cons, Event.destroyedObject, hdes]

theorem collectObjects_ok (s : Scene) :
    ∀ (indexes : List QModelIndex),
      (∀ h ∈ indexes, h.isValid = true → denotesLiveNode s.root h = true) →
      ∃ objs, collectObjects s indexes = some objs
  | [], _ => ⟨[], rfl⟩
  | i :: rest, hlive => by
    obtain ⟨os, hos⟩ := collectObjects_ok s rest
      (fun h hh => hlive h (List.mem_cons_of_mem _ hh))
    cases hv : i.isValid with
    | false => exact ⟨os, by simp [collectObjects, hv, hos]⟩
    | true =>
      have hl := hlive i (List.mem_cons_self _ _) hv
      unfold denotesLiveNode at hl
      cases hip : i.internalPointer with
      | none => rw [hip] at hl; cases hl
      | some p =>
        rw [hip] at hl
        simp only [decide_eq_true_eq] at hl
        have hget : getObject s i = p := by simp [getObject, hv, hip]
        obtain ⟨x, hx⟩ := lookup_of_mem p s.root (mem_ptrs_of_mem_children hl)
        exact ⟨x :: os, by simp [collectObjects, hv, hget, hx, hos]⟩

end Scene

/-- C9: a move drop removes the dragged sources. In a scene with distinct addresses, let
`mimeData` capture handles whose valid members denote live nodes, none inside the subtree
of another, and let the payload decode to freshly allocated objects. Then a drop with
`MoveAction` that carries the format, on a column that is not greater than 0 and on a live
target, returns; afterwards no dragged node is in the tree, the ids of the dragged nodes
have been appended to the free-id queue in drag order, and the trace shows first the
insertions of all dropped objects and then the removals of all dragged nodes, whatever
the rows of the stored handles have become. -/
theorem move_drop_removes_dragged_sources (s0 : Scene) (indexes : List QModelIndex)
    (data : QMimeData) (row column : Int) (parent : QModelIndex)
    (hfresh : (ptrs s0.root ++ ptrsList data.objects).Nodup)
    (hlive : ∀ h ∈ indexes, h.isValid = true → denotesLiveNode s0.root h = true)
    (hnest : (draggedPtrs indexes).Pairwise (nonNested s0.root))
    (hfmt : data.hasFormat "application/Object" = true) (hcol : column ≤ 0)
    (hparent : getObject s0 parent ∈ ptrs s0.root) :
    ∃ payload s1 s2 ins rem,
      mimeData s0 indexes = .ok (payload, s1) ∧
      s1.draggedObjects = indexes.filter (fun i => i.isValid) ∧
      dropMimeData s1 data DropAction.MoveAction row column parent = .ok (false, s2) ∧
      (∀ p ∈ draggedPtrs indexes, p ∉ ptrs s2.root) ∧
      s2.freeIds = s0.freeIds ++ (draggedPtrs indexes).map (idOf s0.root) ∧
      s2.objectCounter = s0.objectCounter ∧
      s2.events = s0.events ++ ins ++ rem ++ [Event.changed] ∧
      (∀ e ∈ ins, e.isInsertion = true) ∧
      ins.filterMap Event.attachedObject = data.objects.map ptr ∧
      (∀ e ∈ rem, e.isInsertion = false) ∧
      rem.filterMap Event.destroyedObject = draggedPtrs indexes := by
  obtain ⟨objs, hobjs⟩ := collectObjects_ok s0 indexes hlive
  set s1 : Scene := { s0 with draggedObjects := indexes.filter (fun i => i.isValid) } with hs1
  have hmime : mimeData s0 indexes =
      .ok ({ formats := ["application/Object"], objects := objs }, s1) := by
    simp [mimeData, hobjs, hs1]
  have hn0 : (ptrs s0.root).Nodup := (List.nodup_append.1 hfresh).1
  obtain ⟨sA, ins, hrunA, hnA, hrootA, hlookA, hfreeA, hcntA, hdragA, hevA, hinsA, hattA⟩ :=
    dropInsertLoop_ok row parent data.objects s1 hfresh hparent
  -- the dragged handles in the scene after the insertions
  have hptr_live : ∀ p ∈ draggedPtrs indexes, p ∈ ptrsList s0.root.children := by
    intro p hp
    obtain ⟨h, hh, hip⟩ := List.mem_filterMap.1 hp
    have hh2 := List.mem_filter.1 hh
    have := hlive h hh2.1 hh2.2
    unfold denotesLiveNode at this
    rw [hip] at this
    simpa using this
  have hfacts : ∀ p ∈ draggedPtrs indexes, ∃ x x1, lookup p s0.root = some x ∧
      lookup p sA.root = some x1 ∧ x1.id = x.id ∧
      (∀ a ∈ ptrs x1, a ∈ ptrs x ∨ a ∈ ptrsList data.objects) ∧
      p ∈ ptrsList sA.root.children := by
    intro p hp
    have hpl := hptr_live p hp
    obtain ⟨x, x1, hx, hx1, hid, hsub⟩ := hlookA p (mem_ptrs_of_mem_children hpl)
    refine ⟨x, x1, hx, hx1, hid, hsub, ?_⟩
    have h2 := (lookup_some _ _ _ hx1).2
    rw [ptrs_eq] at h2
    rcases List.mem_cons.1 h2 with h3 | h3
    · exfalso
      rw [hrootA] at h3
      exact root_ne_of_mem_children hn0 hpl h3.symm
    · exact h3
  have hliveA : ∀ h ∈ sA.draggedObjects, h.isValid = true ∧ denotesLiveNode sA.root h = true := by
    intro h hh
    rw [hdragA] at hh
    have hh2 := List.mem_filter.1 hh
    refine ⟨hh2.2, ?_⟩
    have := hlive h hh2.1 hh2.2
    unfold denotesLiveNode at this ⊢
    cases hip : h.internalPointer with
    | none => rw [hip] at this; cases this
    | some p =>
      simp only [decide_eq_true_eq]
      obtain ⟨_, _, _, _, _, _, hm⟩ := hfacts p (List.mem_filterMap.2 ⟨h, hh, hip⟩)
      exact hm
  have hdp : sA.draggedObjects.filterMap (fun i => i.internalPointer) = draggedPtrs indexes := by
    rw [hdragA]; rfl
  have hpairA : (sA.draggedObjects.filterMap (fun i => i.internalPointer)).Pairwise
      (nonNested sA.root) := by
    rw [hdp]
    refine List.Pairwise.imp_of_mem ?_ hnest
    intro a b ha hb hab
    have key : ∀ a b, a ∈ draggedPtrs indexes → b ∈ draggedPtrs indexes →
        b ∉ subtreePtrs s0.root a → b ∉ subtreePtrs sA.root a := by
      intro a b ha hb hab hm
      obtain ⟨x, x1, hx, hx1, _, hsub, _⟩ := hfacts a ha
      rw [subtreePtrs_of_lookup hx1] at hm
      rw [subtreePtrs_of_lookup hx] at hab
      rcases hsub b hm with h1 | h1
      · exact hab h1
      · exact (List.nodup_append.1 hfresh).2.2
          (mem_ptrs_of_mem_children (hptr_live b hb)) h1
    exact ⟨key a b ha hb hab.1, key b a hb ha hab.2⟩
  obtain ⟨sB, rem, hrunB, _, hgone, hfreeB, hcntB, _, hevB, hremB, hdesB⟩ :=
    dropRemoveLoop_ok sA.draggedObjects sA hnA hliveA hpairA
  have hids : (draggedPtrs indexes).map (idOf sA.root) =
      (draggedPtrs indexes).map (idOf s0.root) := by
    apply List.map_congr_left
    intro p hp
    obtain ⟨x, x1, hx, hx1, hid, _, _⟩ := hfacts p hp
    rw [idOf_of_lookup hx1, idOf_of_lookup hx, hid]
  refine ⟨_, s1, { sB with events := sB.events ++ [Event.changed] }, ins, rem, hmime, rfl,
    ?_, ?_, ?_, ?_, ?_, hinsA, hattA, hremB, ?_⟩
  · unfold dropMimeData
    have hc : ¬ column > 0 := by omega
    simp only [hfmt, hc, hrunA, hrunB]
    simp
  · intro p hp
    exact hgone p (hdp ▸ hp)
  · show sB.freeIds = _
    rw [hfreeB, hdp, hids, hfreeA]
  · show sB.objectCounter = _
    rw [hcntB, hcntA]
  · show sB.events ++ [Event.changed] = _
    rw [hevB, hevA]
  · rw [hdesB, hdp]

/-- C9, at a concrete drop: the object with id 3 at row 2 of the root is dragged and
dropped under the root at row 0, before its own row. The copy is inserted at row 0, the
dragged object (now at row 3) is removed and its id 3 is queued. -/
theorem move_drop_removes_dragged_sources_witness :
    (∃ payload s1 s2 ins rem,
      mimeData scene123 [createIndex 2 0 12] = .ok (payload, s1) ∧
      s1.draggedObjects = [createIndex 2 0 12].filter (fun i => i.isValid) ∧
      dropMimeData s1 payloadCopyOf3 DropAction.MoveAction 0 0 QModelIndex.invalid =
        .ok (false, s2) ∧
      (∀ p ∈ draggedPtrs [createIndex 2 0 12], p ∉ ptrs s2.root) ∧
      s2.freeIds = scene123.freeIds ++
        (draggedPtrs [createIndex 2 0 12]).map (idOf scene123.root) ∧
      s2.objectCounter = scene123.objectCounter ∧
      s2.events = scene123.events ++ ins ++ rem ++ [Event.changed] ∧
      (∀ e ∈ ins, e.isInsertion = true) ∧
      ins.filterMap Event.attachedObject = payloadCopyOf3.objects.map ptr ∧
      (∀ e ∈ rem, e.isInsertion = false) ∧
      rem.filterMap Event.destroyedObject = draggedPtrs [createIndex 2 0 12]) ∧
    dropMimeData sceneDragging3 payloadCopyOf3 DropAction.MoveAction 0 0 QModelIndex.invalid =
      .ok (false,
        { root := Object.mk 0 0 [Object.mk 30 3 [], Object.mk 10 1 [], Object.mk 11 2 []],
          freeIds := [3], objectCounter := 4, objects := [(1, 10), (2, 11), (3, 12)],
          draggedObjects := [createIndex 2 0 12],
          events := [Event.attached 30 0, Event.beginInsertRows QModelIndex.invalid 0 0,
                     Event.endInsertRows,
                     Event.beginRemoveRows QModelIndex.invalid 3 3, Event.destroyed 12,
                     Event.endRemoveRows, Event.changed, Event.changed] }) :=
  ⟨move_drop_removes_dragged_sources scene123 [createIndex 2 0 12] payloadCopyOf3 0 0
      QModelIndex.invalid (by decide) (by decide) (by decide) (by decide) (by decide)
      (by decide),
   by decide⟩

/-! ## The order in which `insertRows` leaves the inserted objects -/

namespace Object

theorem foldl_insertAt (n : Nat) :
    ∀ (objs cs : List Object), n ≤ cs.length →
      objs.foldl (fun acc o => insertAt (n : Int) o acc) cs =
        cs.take n ++ objs.reverse ++ cs.drop n
  | [], cs, _ => by simp
  | o :: os, cs, h => by
    have hlen : (cs.take n).length = n := by simp [h]
    have h1 : n ≤ (insertAt (n : Int) o cs).length := by
      simp [insertAt]; omega
    rw [List.foldl_cons, foldl_insertAt n os _ h1]
    simp only [insertAt, Int.toNat_ofNat]
    rw [List.take_left' hlen, List.drop_left' hlen]
    simp [List.append_assoc]

end Object

namespace Scene

theorem insertLoop_root (pos : Int) :
    ∀ (objs : List Object) (r : Ptr) (i : Int) (cs : List Object) (ev : List Event),
      (insertLoop r pos objs (Object.mk r i cs, ev)).1 =
        Object.mk r i (objs.foldl (fun acc o => insertAt pos o acc) cs)
  | [], _, _, _, _ => rfl
  | o :: os, r, i, cs, ev => by
    simp only [insertLoop, addChild, if_true, List.foldl_cons]
    exact insertLoop_root pos os r i (insertAt pos o cs) _

theorem insertLoop_root_children (pos : Int) (objs : List Object) (t : Object)
    (ev : List Event) :
    (insertLoop t.ptr pos objs (t, ev)).1.children =
      objs.foldl (fun acc o => insertAt pos o acc) t.children := by
  cases t
  rw [ptr_mk, insertLoop_root, children_mk, children_mk]

/-- What `insertRows` does below the root, for a position inside the children of the root:
the objects of the list end up at the rows from `position` on in reverse order. -/
theorem insertRows_root_reverses (s : Scene) (position : Int) (objects : List Object)
    (h0 : 0 ≤ position) (h1 : position ≤ s.root.childCount) :
    ∃ s1, insertRows s position QModelIndex.invalid objects = .ok s1 ∧
      s1.root.children = s.root.children.take position.toNat ++ objects.reverse ++
        s.root.children.drop position.toNat := by
  have hget : getObject s QModelIndex.invalid = s.root.ptr :=
    getObject_of_not_valid s _ (by decide)
  have hl : lookup s.root.ptr s.root = some s.root := lookup_self _
  have hpos : ((position.toNat : Nat) : Int) = position := Int.toNat_of_nonneg h0
  have hlen : position.toNat ≤ s.root.children.length := by
    unfold Object.childCount at h1
    omega
  have hres : insertRows s position QModelIndex.invalid objects = .ok { s with
      root := (insertLoop s.root.ptr position objects (s.root, s.events)).1,
      events := (insertLoop s.root.ptr position objects (s.root, s.events)).2 ++
        [Event.beginInsertRows QModelIndex.invalid position
           (wrapInt32 (wrapInt32 (position + (objects.length : Int)) - 1)),
         Event.endInsertRows] } := by
    simp [insertRows, hget, hl]
  refine ⟨_, hres, ?_⟩
  show (insertLoop s.root.ptr position objects (s.root, s.events)).1.children = _
  rw [insertLoop_root_children, ← hpos, foldl_insertAt _ objects _ hlen, hpos]

end Scene

end Splines
